import Mathlib

/-!
Verification of the debt simplification engine `simplifyDebts`
(src/lib/transactions-cache.ts) of the Floutex/finance repository.

The engine is embedded shallowly: JavaScript `Map`s (which iterate in
insertion order and update values in place) are modelled as association
lists `List (String × α)` where `mapGet` reads the first occurrence of a
key, `mapSet` replaces the value in place (appending at the end when the
key is absent, as `Map.set` does), and `mapDelete` removes the entry.
JavaScript numbers are idealised as rationals `ℚ`; `Number(x.toFixed(2))`
becomes rounding to the nearest integer multiple of 1/100 (ties up, as
`toFixed` picks the larger candidate), and every comparison against the
source's `0.01` literal uses `1/100`.  The `while (simplified)` loop of
Phase 3 is modelled with explicit fuel; the termination theorem shows the
fuel chosen in `phase3` suffices to reach the loop's fixpoint.
-/

attribute [local semireducible] Rat.add Rat.mul Rat.inv Rat.sub

set_option maxRecDepth 100000

namespace Finance

/-- Input record of `simplifyDebts`: `interface Transaction` of the source. -/
structure Transaction where
  paid_by : String
  amount : ℚ
  participants : List String
  deriving DecidableEq, Repr

/-- Output record of `simplifyDebts`: `interface Debt` of the source
(`from` and `to` are Lean keywords, hence the field names `from_`, `to_`). -/
structure Debt where
  from_ : String
  to_ : String
  amount : ℚ
  deriving DecidableEq, Repr

/-- Inner map of the pairwise ledger: creditor to accumulated amount. -/
abbrev InnerMap := List (String × ℚ)

/-- The ledger `Map<string, Map<string, number>>`: debtor to creditor map. -/
abbrev Ledger := List (String × InnerMap)

/-- `Map.get`: first occurrence of the key. -/
def mapGet {α : Type} (m : List (String × α)) (k : String) : Option α :=
  match m with
  | [] => none
  | (k', v) :: rest => if k' = k then some v else mapGet rest k

/-- `Map.set`: replace the value in place, or append a new entry at the end. -/
def mapSet {α : Type} (m : List (String × α)) (k : String) (v : α) : List (String × α) :=
  match m with
  | [] => [(k, v)]
  | (k', v') :: rest => if k' = k then (k, v) :: rest else (k', v') :: mapSet rest k v

/-- `Map.delete`: remove the entry of the key. -/
def mapDelete {α : Type} (m : List (String × α)) (k : String) : List (String × α) :=
  match m with
  | [] => []
  | (k', v') :: rest => if k' = k then rest else (k', v') :: mapDelete rest k

/-- The entry of the ledger at debtor `a`, creditor `b`, when present. -/
def entryAt (m : Ledger) (a b : String) : Option ℚ :=
  (mapGet m a).bind (fun inn => mapGet inn b)

/-- The amount owed by `a` to `b`, read as the source reads it:
`pairwiseDebts.get(a)?.get(b) || 0`. -/
def getv (m : Ledger) (a b : String) : ℚ :=
  (entryAt m a b).getD 0

/-- `pairwiseDebts.get(a)!.set(b, v)`: update an inner map in place.  When
the debtor is absent (unreachable in the source, which only does this on
maps it holds a live reference to) nothing happens. -/
def setInner (m : Ledger) (a b : String) (v : ℚ) : Ledger :=
  match mapGet m a with
  | some inn => mapSet m a (mapSet inn b v)
  | none => m

/-- `pairwiseDebts.get(a)!.delete(b)`. -/
def delInner (m : Ledger) (a b : String) : Ledger :=
  match mapGet m a with
  | some inn => mapSet m a (mapDelete inn b)
  | none => m

/-- `if (pairwiseDebts.get(a)!.size === 0) pairwiseDebts.delete(a)`. -/
def dropIfEmpty (m : Ledger) (a : String) : Ledger :=
  match mapGet m a with
  | some inn => if inn.length = 0 then mapDelete m a else m
  | none => m

/-- The source's `addDebt` helper: ensure the debtor map exists, then
`debtorMap.set(creditor, (debtorMap.get(creditor) || 0) + amount)`. -/
def addDebt (m : Ledger) (debtor creditor : String) (amount : ℚ) : Ledger :=
  let debtorMap := (mapGet m debtor).getD []
  mapSet m debtor (mapSet debtorMap creditor ((mapGet debtorMap creditor).getD 0 + amount))

/-- Phase 1: direct pairwise accumulation over the transaction list.
Transactions with an empty participant list are skipped; every participant
other than the payer owes `amount / participants.length` to the payer. -/
def phase1 (transactions : List Transaction) : Ledger :=
  transactions.foldl (fun m t =>
    if t.participants.length = 0 then m
    else
      let splitAmount := t.amount / (t.participants.length : ℚ)
      t.participants.foldl (fun m2 participant =>
        if participant = t.paid_by then m2
        else addDebt m2 participant t.paid_by splitAmount) m) []

/-- Lexicographic order on character lists: the default comparator of
`Array.prototype.sort`, which compares the two participant names. -/
def charListLe : List Char → List Char → Bool
  | [], _ => true
  | _ :: _, [] => false
  | a :: as, b :: bs => if a < b then true else if b < a then false else charListLe as bs

/-- String comparison as JavaScript's default sort comparator orders strings. -/
def strLe (a b : String) : Bool :=
  charListLe a.data b.data

/-- The canonical pair key `[debtorA, creditorB].sort().join('→')`. -/
def pairKeyStr (a b : String) : String :=
  if strLe a b then a ++ "→" ++ b else b ++ "→" ++ a

/-- All ordered (debtor, creditor) pairs of the ledger, in iteration order. -/
def ledgerPairs (m : Ledger) : List (String × String) :=
  m.flatMap (fun p => p.2.map (fun q => (p.1, q.1)))

/-- One step of Phase 2 for the pair (debtorA, creditorB): skip if the
canonical key was processed, otherwise net a bidirectional debt. -/
def phase2step (st : Ledger × List String) (pr : String × String) : Ledger × List String :=
  let m := st.1
  let processed := st.2
  let debtorA := pr.1
  let creditorB := pr.2
  let key := pairKeyStr debtorA creditorB
  if key ∈ processed then st
  else
    let processed2 := key :: processed
    let amountAtoB := getv m debtorA creditorB
    let debtBtoA := getv m creditorB debtorA
    if 0 < debtBtoA then
      let netAmount := abs (amountAtoB - debtBtoA)
      let m1 := setInner m debtorA creditorB (if debtBtoA < amountAtoB then netAmount else 0)
      let m2 := if (mapGet m1 creditorB).isSome then
          setInner m1 creditorB debtorA (if amountAtoB < debtBtoA then netAmount else 0)
        else m1
      (m2, processed2)
    else (m, processed2)

/-- Phase 2: consolidate bidirectional debts.  The key structure of the
ledger does not change during this phase, so the live double `forEach` of
the source is a fold over the pairs present at its start, re-reading
values from the current state. -/
def phase2net (m : Ledger) : Ledger :=
  ((ledgerPairs m).foldl phase2step (m, [])).1

/-- The cleanup after Phase 2: remove entries below one cent, then remove
debtors whose creditor map became empty. -/
def cleanup (m : Ledger) : Ledger :=
  (m.map (fun p => (p.1, p.2.filter (fun q => ¬ (q.2 < 1/100))))).filter
    (fun p => ¬ (p.2.length = 0))

/-- The data of a chain found by the Phase 3 scan: `A→B→C` together with
the two amounts read during iteration. -/
structure ChainInfo where
  debtorA : String
  intermediaryB : String
  creditorC : String
  amountAtoB : ℚ
  amountBtoC : ℚ
  deriving DecidableEq, Repr

/-- Innermost scan loop of Phase 3: first creditor `C` of `B` with
`C ≠ A` and `min(amountAtoB, amountBtoC) ≥ 0.01`. -/
def findChainC (debtorA intermediaryB : String) (amountAtoB : ℚ) :
    InnerMap → Option ChainInfo
  | [] => none
  | (creditorC, amountBtoC) :: rest =>
    if creditorC = debtorA then findChainC debtorA intermediaryB amountAtoB rest
    else if min amountAtoB amountBtoC < 1/100 then
      findChainC debtorA intermediaryB amountAtoB rest
    else some ⟨debtorA, intermediaryB, creditorC, amountAtoB, amountBtoC⟩

/-- Middle scan loop of Phase 3 over the creditors of `debtorA`. -/
def findChainB (m : Ledger) (debtorA : String) : InnerMap → Option ChainInfo
  | [] => none
  | (intermediaryB, amountAtoB) :: rest =>
    match mapGet m intermediaryB with
    | none => findChainB m debtorA rest
    | some creditorsOfB =>
      if creditorsOfB.length = 0 then findChainB m debtorA rest
      else
        match findChainC debtorA intermediaryB amountAtoB creditorsOfB with
        | some ch => some ch
        | none => findChainB m debtorA rest

/-- Outer scan loop of Phase 3 over the debtors. -/
def findChainA (m : Ledger) : Ledger → Option ChainInfo
  | [] => none
  | (debtorA, creditorsOfA) :: rest =>
    match findChainB m debtorA creditorsOfA with
    | some ch => some ch
    | none => findChainA m rest

/-- One full scan of Phase 3: the first collapsible chain, if any. -/
def findChain (m : Ledger) : Option ChainInfo :=
  findChainA m m

/-- The collapse performed by Phase 3 on a found chain: transfer
`min(amountAtoB, amountBtoC)` onto `A→C`, reduce `A→B` and `B→C`, purge
entries below one cent and debtors whose map became empty. -/
def collapseChain (m : Ledger) (ch : ChainInfo) : Ledger :=
  let transferAmount := min ch.amountAtoB ch.amountBtoC
  let m1 := addDebt m ch.debtorA ch.creditorC transferAmount
  let m2 := setInner m1 ch.debtorA ch.intermediaryB (ch.amountAtoB - transferAmount)
  let m3 := setInner m2 ch.intermediaryB ch.creditorC (ch.amountBtoC - transferAmount)
  let m4 := if getv m3 ch.debtorA ch.intermediaryB < 1/100 then
      delInner m3 ch.debtorA ch.intermediaryB
    else m3
  let m5 := if getv m4 ch.intermediaryB ch.creditorC < 1/100 then
      delInner m4 ch.intermediaryB ch.creditorC
    else m4
  let m6 := dropIfEmpty m5 ch.debtorA
  dropIfEmpty m6 ch.intermediaryB

/-- The `while (simplified)` loop of Phase 3, with explicit fuel: each
iteration rescans from scratch and collapses the first chain found. -/
def phase3go : Nat → Ledger → Ledger
  | 0, m => m
  | n+1, m =>
    match findChain m with
    | none => m
    | some ch => phase3go n (collapseChain m ch)

/-- Total value held in the ledger; the termination measure of Phase 3. -/
def ledgerSum (m : Ledger) : ℚ :=
  (m.map (fun p => (p.2.map (fun q => q.2)).sum)).sum

/-- Fuel sufficient for Phase 3: each collapse removes at least one cent
from `ledgerSum`, which starts non-negative. -/
def phase3fuel (m : Ledger) : Nat :=
  (⌈(100 : ℚ) * ledgerSum m⌉).toNat + 1

/-- Phase 3: collapse chains until a full scan finds none. -/
def phase3 (m : Ledger) : Ledger :=
  phase3go (phase3fuel m) m

/-- `Number(x.toFixed(2))`: round to the nearest cent, ties away from zero
for the non-negative amounts that reach this point. -/
def round2 (q : ℚ) : ℚ :=
  ((round ((100 : ℚ) * q) : ℤ) : ℚ) / 100

/-- Phase 4: flatten the ledger, keeping entries of at least one cent,
each amount rounded to two decimals. -/
def materialize (m : Ledger) : List Debt :=
  m.flatMap (fun p => p.2.filterMap (fun q =>
    if 1/100 ≤ q.2 then some ⟨p.1, q.1, round2 q.2⟩ else none))

/-- The debt simplification engine `simplifyDebts`. -/
def simplifyDebts (transactions : List Transaction) : List Debt :=
  let m0 := phase1 transactions
  let m1 := phase2net m0
  let m2 := cleanup m1
  let m3 := phase3 m2
  materialize m3

/-! ### Claim-side apparatus

Definitions used to state the claims: net positions, the raw computation
of the conservation claim, weighted ledger sums, and structural invariants
of the ledger. -/

/-- A participant's net position in an output debt list: total receivable
minus total payable, as the conservation claim reads the output. -/
def netposDebts (ds : List Debt) (p : String) : ℚ :=
  (ds.map (fun d => (if d.to_ = p then d.amount else 0) -
    (if d.from_ = p then d.amount else 0))).sum

/-- The conservation claim's reference value, computed directly from the
raw transaction list: total amount paid on behalf of others minus total
share consumed, skipping empty-participant transactions and excluding the
payer's own share. -/
def rawNet (ts : List Transaction) (p : String) : ℚ :=
  (ts.map (fun t =>
    if t.participants.length = 0 then 0
    else
      (t.amount / (t.participants.length : ℚ)) *
        ((if t.paid_by = p then
            (t.participants.length : ℚ) - ((t.participants.count t.paid_by : ℕ) : ℚ)
          else 0)
          - (if p = t.paid_by then 0 else ((t.participants.count p : ℕ) : ℚ)))
  )).sum

/-- Weight of a ledger entry from debtor `d` to creditor `c` in the net
position of participant `p`: `+1` as creditor, `-1` as debtor. -/
def netw (p d c : String) : ℚ :=
  (if c = p then 1 else 0) - (if d = p then 1 else 0)

/-- Weighted sum of an inner map. -/
def innerWSum (f : String → ℚ) (inn : InnerMap) : ℚ :=
  (inn.map (fun q => f q.1 * q.2)).sum

/-- Weighted sum of a ledger, entry `(d, c, v)` contributing `w d c * v`. -/
def ledgerWSum (w : String → String → ℚ) (m : Ledger) : ℚ :=
  (m.map (fun p => innerWSum (w p.1) p.2)).sum

/-- A participant's net position in a ledger: total owed to them minus
total owed by them. -/
def netposL (m : Ledger) (p : String) : ℚ :=
  ledgerWSum (netw p) m

/-- The keys of an association list, in order. -/
def keys {α : Type} (m : List (String × α)) : List String :=
  m.map Prod.fst

/-- Both key levels of the ledger are duplicate-free; holds for every
ledger the engine builds, since entries are only created by `Map.set`. -/
def WFLedger (m : Ledger) : Prop :=
  (keys m).Nodup ∧ ∀ p ∈ m, (keys p.2).Nodup

/-- No ledger entry is a self-debt. -/
def NoSelfL (m : Ledger) : Prop :=
  ∀ p ∈ m, ∀ q ∈ p.2, q.1 ≠ p.1

/-- All ledger amounts are non-negative. -/
def NonnegL (m : Ledger) : Prop :=
  ∀ p ∈ m, ∀ q ∈ p.2, 0 ≤ q.2

/-- A participant name free of the `'→'` character that the engine uses
as separator in the canonical pair key. -/
def noArrow (s : String) : Prop :=
  '→' ∉ s.data

/-- All payer and participant names of a transaction list avoid `'→'`. -/
def CleanNames (ts : List Transaction) : Prop :=
  ∀ t ∈ ts, noArrow t.paid_by ∧ ∀ q ∈ t.participants, noArrow q

/-- All keys of a ledger avoid `'→'`. -/
def CleanKeysL (m : Ledger) : Prop :=
  ∀ p ∈ m, noArrow p.1 ∧ ∀ q ∈ p.2, noArrow q.1

/-! ### Association list lemmas -/

/-- The invariant carried through the Phase 2 fold for one unordered pair
{X, Y} with initial amounts `x0 = X→Y` and `y0 = Y→X`: either the pair's
canonical key is not yet processed and both entries still hold their
initial values, or the pair has been netted and the two entries hold the
netted amounts. -/
def pairInv (X Y : String) (x0 y0 : ℚ) (st : Ledger × List String) : Prop :=
  (entryAt st.1 X Y = some x0 ∧ entryAt st.1 Y X = some y0 ∧
    pairKeyStr X Y ∉ st.2) ∨
  ((entryAt st.1 X Y = some (if y0 < x0 then x0 - y0 else 0) ∧
    entryAt st.1 Y X = some (if x0 < y0 then y0 - x0 else 0)) ∧
    pairKeyStr X Y ∈ st.2)

instance noArrowDecidable (s : String) : Decidable (noArrow s) :=
  inferInstanceAs (Decidable ('→' ∉ s.data))

instance cleanNamesDecidable (ts : List Transaction) : Decidable (CleanNames ts) :=
  inferInstanceAs
    (Decidable (∀ t ∈ ts, noArrow t.paid_by ∧ ∀ q ∈ t.participants, noArrow q))

/-- A three-transaction debt cycle: B and C each front one purchase and A
fronts a third, leaving a cyclic pattern of obligations. -/
def cycleDemo : List Transaction :=
  [⟨"B", 20, ["A", "B"]⟩, ⟨"C", 20, ["B", "C"]⟩, ⟨"A", 10, ["A", "C"]⟩]

/-- Four transactions between participants whose names contain the `→`
separator, so that the unordered pairs {x, y→z} and {x→y, z} share the
canonical sorted-pair key `x→y→z`. -/
def collideDemo : List Transaction :=
  [⟨"y→z", 2, ["x", "y→z"]⟩, ⟨"x", 4, ["x", "y→z"]⟩,
   ⟨"z", 2, ["x→y", "z"]⟩, ⟨"x→y", 4, ["x→y", "z"]⟩]

/-- Two transactions between A and B leaving balances in both directions:
B owes A 50 from the first, A owes B 20 from the second. -/
def pairDemo : List Transaction :=
  [⟨"A", 100, ["A", "B"]⟩, ⟨"B", 40, ["A", "B"]⟩]

theorem keys_nil {α : Type} : keys ([] : List (String × α)) = [] := rfl

theorem keys_cons {α : Type} (a : String) (b : α) (t : List (String × α)) :
    keys ((a, b) :: t) = a :: keys t := rfl

theorem mapGet_mapSet_self {α : Type} (m : List (String × α)) (k : String) (v : α) :
    mapGet (mapSet m k v) k = some v := by
  induction m with
  | nil => simp [mapGet, mapSet]
  | cons h t ih =>
    obtain ⟨k', v'⟩ := h
    by_cases hk : k' = k
    · simp [mapGet, mapSet, hk]
    · simp [mapGet, mapSet, hk, ih]

theorem mapGet_mapSet_ne {α : Type} (m : List (String × α)) (k k2 : String) (v : α)
    (h : k2 ≠ k) : mapGet (mapSet m k v) k2 = mapGet m k2 := by
  have hk2 : ¬ k = k2 := fun hh => h hh.symm
  induction m with
  | nil => simp [mapGet, mapSet, hk2]
  | cons hd t ih =>
    obtain ⟨k', v'⟩ := hd
    by_cases hk : k' = k
    · subst hk
      simp [mapGet, mapSet, hk2]
    · by_cases hk2' : k' = k2
      · simp [mapGet, mapSet, hk, hk2', h]
      · simp [mapGet, mapSet, hk, hk2', ih]

theorem mapGet_mapDelete_ne {α : Type} (m : List (String × α)) (k k2 : String)
    (h : k2 ≠ k) : mapGet (mapDelete m k) k2 = mapGet m k2 := by
  have hk2 : ¬ k = k2 := fun hh => h hh.symm
  induction m with
  | nil => simp [mapDelete]
  | cons hd t ih =>
    obtain ⟨k', v'⟩ := hd
    by_cases hk : k' = k
    · subst hk
      simp [mapDelete, mapGet, hk2]
    · by_cases hk2' : k' = k2
      · simp [mapDelete, mapGet, hk, hk2', h]
      · simp [mapDelete, mapGet, hk, hk2', ih]

theorem mem_of_mapGet_eq_some {α : Type} (m : List (String × α)) (k : String) (v : α)
    (h : mapGet m k = some v) : (k, v) ∈ m := by
  induction m with
  | nil => simp [mapGet] at h
  | cons hd t ih =>
    obtain ⟨k', v'⟩ := hd
    by_cases hk : k' = k
    · subst hk
      simp [mapGet] at h
      simp [h]
    · simp [mapGet, hk] at h
      simp [ih h]

theorem isSome_of_mem_keys {α : Type} (m : List (String × α)) (k : String)
    (h : k ∈ keys m) : (mapGet m k).isSome := by
  induction m with
  | nil => simp [keys] at h
  | cons hd t ih =>
    obtain ⟨k', v'⟩ := hd
    by_cases hk : k' = k
    · simp [mapGet, hk]
    · simp [keys, hk] at h
      rcases h with h | h
      · exact absurd h.symm hk
      · simpa [mapGet, hk] using ih (by simpa [keys] using h)

theorem mem_mapSet {α : Type} (m : List (String × α)) (k : String) (v : α) (p : String × α)
    (h : p ∈ mapSet m k v) : p = (k, v) ∨ p ∈ m := by
  induction m with
  | nil => simpa [mapSet] using h
  | cons hd t ih =>
    obtain ⟨k', v'⟩ := hd
    by_cases hk : k' = k
    · simp [mapSet, hk] at h
      rcases h with h | h
      · exact Or.inl h
      · exact Or.inr (List.mem_cons_of_mem _ h)
    · simp [mapSet, hk] at h
      rcases h with h | h
      · exact Or.inr (by simp [h])
      · rcases ih h with h2 | h2
        · exact Or.inl h2
        · exact Or.inr (List.mem_cons_of_mem _ h2)

theorem mem_mapDelete {α : Type} (m : List (String × α)) (k : String) (p : String × α)
    (h : p ∈ mapDelete m k) : p ∈ m := by
  induction m with
  | nil => simpa [mapDelete] using h
  | cons hd t ih =>
    obtain ⟨k', v'⟩ := hd
    by_cases hk : k' = k
    · simp [mapDelete, hk] at h
      exact List.mem_cons_of_mem _ h
    · simp [mapDelete, hk] at h
      rcases h with h | h
      · simp [h]
      · exact List.mem_cons_of_mem _ (ih h)

theorem mem_keys_mapSet {α : Type} (m : List (String × α)) (k a : String) (v : α)
    (h : a ∈ keys (mapSet m k v)) : a ∈ keys m ∨ a = k := by
  induction m with
  | nil => simpa [mapSet, keys] using h
  | cons hd t ih =>
    obtain ⟨k', v'⟩ := hd
    by_cases hk : k' = k
    · simp [mapSet, hk, keys] at h
      rcases h with h | h
      · exact Or.inr h
      · exact Or.inl (by simp [keys, h])
    · simp [mapSet, hk, keys] at h
      rcases h with h | h
      · exact Or.inl (by simp [keys, h])
      · rcases ih (by simpa [keys] using h) with h2 | h2
        · exact Or.inl (by simp [keys] at h2 ⊢; exact Or.inr h2)
        · exact Or.inr h2

theorem keys_nodup_mapSet {α : Type} (m : List (String × α)) (k : String) (v : α)
    (h : (keys m).Nodup) : (keys (mapSet m k v)).Nodup := by
  induction m with
  | nil => simp [mapSet, keys]
  | cons hd t ih =>
    obtain ⟨k', v'⟩ := hd
    rw [keys_cons, List.nodup_cons] at h
    by_cases hk : k' = k
    · subst hk
      have hms : mapSet ((k', v') :: t) k' v = (k', v) :: t := by
        simp [mapSet]
      rw [hms, keys_cons, List.nodup_cons]
      exact h
    · simp only [mapSet, if_neg hk, keys_cons, List.nodup_cons]
      refine ⟨?_, ih h.2⟩
      intro hmem
      rcases mem_keys_mapSet t k k' v hmem with h2 | h2
      · exact h.1 h2
      · exact hk h2

theorem mem_keys_mapDelete {α : Type} (m : List (String × α)) (k a : String)
    (h : a ∈ keys (mapDelete m k)) : a ∈ keys m := by
  induction m with
  | nil => simpa [mapDelete, keys] using h
  | cons hd t ih =>
    obtain ⟨k', v'⟩ := hd
    by_cases hk : k' = k
    · simp [mapDelete, hk, keys] at h ⊢
      exact Or.inr h
    · simp [mapDelete, hk, keys] at h ⊢
      rcases h with h | h
      · exact Or.inl h
      · exact Or.inr (by simpa [keys] using ih (by simpa [keys] using h))

theorem keys_nodup_mapDelete {α : Type} (m : List (String × α)) (k : String)
    (h : (keys m).Nodup) : (keys (mapDelete m k)).Nodup := by
  induction m with
  | nil => simp [mapDelete, keys]
  | cons hd t ih =>
    obtain ⟨k', v'⟩ := hd
    rw [keys_cons, List.nodup_cons] at h
    by_cases hk : k' = k
    · subst hk
      have hmd : mapDelete ((k', v') :: t) k' = t := by
        simp [mapDelete]
      rw [hmd]
      exact h.2
    · have hmd : mapDelete ((k', v') :: t) k = (k', v') :: mapDelete t k := by
        simp [mapDelete, hk]
      rw [hmd, keys_cons, List.nodup_cons]
      exact ⟨fun hmem => h.1 (mem_keys_mapDelete t k k' hmem), ih h.2⟩

theorem mapGet_eq_none_of_not_mem_keys {α : Type} (m : List (String × α)) (k : String)
    (h : k ∉ keys m) : mapGet m k = none := by
  induction m with
  | nil => rfl
  | cons hd t ih =>
    obtain ⟨k', v'⟩ := hd
    rw [keys_cons] at h
    have h1 : ¬ k' = k := fun hh => h (by simp [hh])
    have h2 : k ∉ keys t := fun hh => h (by simp [hh])
    simp [mapGet, h1, ih h2]

theorem mapGet_mapDelete_self {α : Type} (m : List (String × α)) (k : String)
    (h : (keys m).Nodup) : mapGet (mapDelete m k) k = none := by
  induction m with
  | nil => rfl
  | cons hd t ih =>
    obtain ⟨k', v'⟩ := hd
    rw [keys_cons, List.nodup_cons] at h
    by_cases hk : k' = k
    · subst hk
      have hmd : mapDelete ((k', v') :: t) k' = t := by simp [mapDelete]
      rw [hmd]
      exact mapGet_eq_none_of_not_mem_keys t k' h.1
    · have hmd : mapDelete ((k', v') :: t) k = (k', v') :: mapDelete t k := by
        simp [mapDelete, hk]
      rw [hmd]
      simp [mapGet, hk, ih h.2]

/-! ### Entry-level descriptions of the ledger operations -/

theorem getv_def (m : Ledger) (a b : String) : getv m a b = (entryAt m a b).getD 0 := rfl

theorem entryAt_none_left (m : Ledger) (a b : String) (h : mapGet m a = none) :
    entryAt m a b = none := by
  simp [entryAt, h]

theorem entryAt_some_left (m : Ledger) (a b : String) (inn : InnerMap)
    (h : mapGet m a = some inn) : entryAt m a b = mapGet inn b := by
  simp [entryAt, h]

theorem entryAt_setInner_self (m : Ledger) (a b : String) (v : ℚ)
    (h : (mapGet m a).isSome) : entryAt (setInner m a b v) a b = some v := by
  obtain ⟨inn, hinn⟩ := Option.isSome_iff_exists.1 h
  rw [setInner, hinn]
  rw [entryAt, mapGet_mapSet_self]
  simp [mapGet_mapSet_self]

theorem entryAt_setInner_ne (m : Ledger) (a b c d : String) (v : ℚ)
    (h : ¬ (c = a ∧ d = b)) : entryAt (setInner m a b v) c d = entryAt m c d := by
  cases hma : mapGet m a with
  | none => rw [setInner, hma]
  | some inn =>
    rw [setInner, hma]
    by_cases hca : c = a
    · subst hca
      have hdb : d ≠ b := fun hdb => h ⟨rfl, hdb⟩
      rw [entryAt, mapGet_mapSet_self, entryAt, hma]
      simp [mapGet_mapSet_ne inn b d v hdb]
    · rw [entryAt, mapGet_mapSet_ne m a c _ hca, entryAt]

theorem entryAt_addDebt_self (m : Ledger) (a b : String) (t : ℚ) :
    entryAt (addDebt m a b t) a b = some (getv m a b + t) := by
  cases hma : mapGet m a with
  | none => simp [addDebt, hma, entryAt, getv, mapGet_mapSet_self, mapGet]
  | some inn => simp [addDebt, hma, entryAt, getv, mapGet_mapSet_self]

theorem entryAt_addDebt_ne (m : Ledger) (a b c d : String) (t : ℚ)
    (h : ¬ (c = a ∧ d = b)) : entryAt (addDebt m a b t) c d = entryAt m c d := by
  by_cases hca : c = a
  · subst hca
    have hdb : d ≠ b := fun hdb => h ⟨rfl, hdb⟩
    cases hma : mapGet m c with
    | none =>
      simp [addDebt, hma, entryAt, mapGet_mapSet_self,
        mapGet_mapSet_ne _ b d _ hdb, mapGet, Ne.symm hdb]
    | some inn =>
      simp [addDebt, hma, entryAt, mapGet_mapSet_self, mapGet_mapSet_ne _ b d _ hdb]
  · simp [addDebt, entryAt, mapGet_mapSet_ne m a c _ hca]

theorem entryAt_delInner_ne (m : Ledger) (a b c d : String)
    (h : ¬ (c = a ∧ d = b)) : entryAt (delInner m a b) c d = entryAt m c d := by
  cases hma : mapGet m a with
  | none => rw [delInner, hma]
  | some inn =>
    rw [delInner, hma]
    by_cases hca : c = a
    · subst hca
      have hdb : d ≠ b := fun hdb => h ⟨rfl, hdb⟩
      rw [entryAt, mapGet_mapSet_self, entryAt, hma]
      simp [mapGet_mapDelete_ne inn b d hdb]
    · rw [entryAt, mapGet_mapSet_ne m a c _ hca, entryAt]

theorem entryAt_delInner_self (m : Ledger) (a b : String) (inn : InnerMap)
    (hma : mapGet m a = some inn) (hnd : (keys inn).Nodup) :
    entryAt (delInner m a b) a b = none := by
  rw [delInner, hma, entryAt, mapGet_mapSet_self]
  simp [mapGet_mapDelete_self inn b hnd]

theorem mapGet_setInner_other (m : Ledger) (a b c : String) (v : ℚ) (h : c ≠ a) :
    mapGet (setInner m a b v) c = mapGet m c := by
  cases hma : mapGet m a with
  | none => rw [setInner, hma]
  | some inn => rw [setInner, hma, mapGet_mapSet_ne m a c _ h]

theorem mapGet_addDebt_other (m : Ledger) (a b c : String) (t : ℚ) (h : c ≠ a) :
    mapGet (addDebt m a b t) c = mapGet m c := by
  rw [addDebt, mapGet_mapSet_ne m a c _ h]

theorem mapGet_delInner_other (m : Ledger) (a b c : String) (h : c ≠ a) :
    mapGet (delInner m a b) c = mapGet m c := by
  cases hma : mapGet m a with
  | none => rw [delInner, hma]
  | some inn => rw [delInner, hma, mapGet_mapSet_ne m a c _ h]

theorem mapGet_setInner_self_isSome (m : Ledger) (a b : String) (v : ℚ)
    (h : (mapGet m a).isSome) : (mapGet (setInner m a b v) a).isSome := by
  obtain ⟨inn, hinn⟩ := Option.isSome_iff_exists.1 h
  rw [setInner, hinn, mapGet_mapSet_self]
  rfl

theorem mapGet_addDebt_self_isSome (m : Ledger) (a b : String) (t : ℚ) :
    (mapGet (addDebt m a b t) a).isSome := by
  rw [addDebt, mapGet_mapSet_self]
  rfl

theorem entryAt_dropIfEmpty (m : Ledger) (a c d : String)
    (hnd : (keys m).Nodup) : entryAt (dropIfEmpty m a) c d = entryAt m c d := by
  cases hma : mapGet m a with
  | none => simp only [dropIfEmpty, hma]
  | some inn =>
    simp only [dropIfEmpty, hma]
    by_cases hlen : inn.length = 0
    · rw [if_pos hlen]
      have hinn : inn = [] := List.length_eq_zero.1 hlen
      by_cases hca : c = a
      · subst hca
        rw [entryAt, mapGet_mapDelete_self m c hnd, entryAt, hma, hinn]
        simp [mapGet]
      · rw [entryAt, mapGet_mapDelete_ne m a c hca, entryAt]
    · rw [if_neg hlen]

theorem mapGet_dropIfEmpty_other (m : Ledger) (a c : String) (h : c ≠ a) :
    mapGet (dropIfEmpty m a) c = mapGet m c := by
  cases hma : mapGet m a with
  | none => simp only [dropIfEmpty, hma]
  | some inn =>
    simp only [dropIfEmpty, hma]
    by_cases hlen : inn.length = 0
    · rw [if_pos hlen, mapGet_mapDelete_ne m a c h]
    · rw [if_neg hlen]

/-! ### Weighted sums of the ledger -/

theorem innerWSum_nil (f : String → ℚ) : innerWSum f [] = 0 := rfl

theorem innerWSum_cons (f : String → ℚ) (q : String × ℚ) (t : InnerMap) :
    innerWSum f (q :: t) = f q.1 * q.2 + innerWSum f t := by
  simp [innerWSum]

theorem innerWSum_mapSet (f : String → ℚ) (inn : InnerMap) (b : String) (v : ℚ) :
    innerWSum f (mapSet inn b v) =
      innerWSum f inn + f b * v - f b * (mapGet inn b).getD 0 := by
  induction inn with
  | nil => simp [mapSet, innerWSum, mapGet]
  | cons hd t ih =>
    obtain ⟨k', v'⟩ := hd
    by_cases hk : k' = b
    · subst hk
      simp [mapSet, innerWSum_cons, mapGet]
      ring
    · simp only [mapSet, if_neg hk, innerWSum_cons, ih, mapGet, hk, if_false]
      ring

theorem innerWSum_mapDelete (f : String → ℚ) (inn : InnerMap) (b : String) :
    innerWSum f (mapDelete inn b) = innerWSum f inn - f b * (mapGet inn b).getD 0 := by
  induction inn with
  | nil => simp [mapDelete, innerWSum, mapGet]
  | cons hd t ih =>
    obtain ⟨k', v'⟩ := hd
    by_cases hk : k' = b
    · subst hk
      simp [mapDelete, innerWSum_cons, mapGet]
    · simp only [mapDelete, if_neg hk, innerWSum_cons, ih, mapGet, hk, if_false]
      ring

theorem ledgerWSum_nil (w : String → String → ℚ) : ledgerWSum w [] = 0 := rfl

theorem ledgerWSum_cons (w : String → String → ℚ) (p : String × InnerMap) (t : Ledger) :
    ledgerWSum w (p :: t) = innerWSum (w p.1) p.2 + ledgerWSum w t := by
  simp [ledgerWSum]

theorem ledgerWSum_mapSet (w : String → String → ℚ) (m : Ledger) (a : String)
    (inn2 : InnerMap) : ledgerWSum w (mapSet m a inn2) =
      ledgerWSum w m + innerWSum (w a) inn2 - innerWSum (w a) ((mapGet m a).getD []) := by
  induction m with
  | nil => simp [mapSet, ledgerWSum, innerWSum, mapGet]
  | cons hd t ih =>
    obtain ⟨k', v'⟩ := hd
    by_cases hk : k' = a
    · subst hk
      simp [mapSet, ledgerWSum_cons, mapGet]
      ring
    · simp only [mapSet, if_neg hk, ledgerWSum_cons, ih, mapGet, hk, if_false]
      ring

theorem ledgerWSum_mapDelete (w : String → String → ℚ) (m : Ledger) (a : String) :
    ledgerWSum w (mapDelete m a) =
      ledgerWSum w m - innerWSum (w a) ((mapGet m a).getD []) := by
  induction m with
  | nil => simp [mapDelete, ledgerWSum, innerWSum, mapGet]
  | cons hd t ih =>
    obtain ⟨k', v'⟩ := hd
    by_cases hk : k' = a
    · subst hk
      simp [mapDelete, ledgerWSum_cons, mapGet]
    · simp only [mapDelete, if_neg hk, ledgerWSum_cons, ih, mapGet, hk, if_false]
      ring

theorem ledgerWSum_setInner (w : String → String → ℚ) (m : Ledger) (a b : String)
    (v : ℚ) (inn : InnerMap) (hma : mapGet m a = some inn) :
    ledgerWSum w (setInner m a b v) = ledgerWSum w m + w a b * (v - getv m a b) := by
  rw [setInner, hma, ledgerWSum_mapSet, innerWSum_mapSet, hma]
  have hg : getv m a b = (mapGet inn b).getD 0 := by
    rw [getv, entryAt_some_left m a b inn hma]
  rw [hg]
  simp only [Option.getD_some]
  ring

theorem ledgerWSum_addDebt (w : String → String → ℚ) (m : Ledger) (a b : String)
    (t : ℚ) : ledgerWSum w (addDebt m a b t) = ledgerWSum w m + w a b * t := by
  cases hma : mapGet m a with
  | none =>
    simp only [addDebt, hma, Option.getD_none]
    rw [ledgerWSum_mapSet, innerWSum_mapSet, hma]
    simp [innerWSum_nil, mapGet]
  | some inn =>
    simp only [addDebt, hma, Option.getD_some]
    rw [ledgerWSum_mapSet, innerWSum_mapSet, hma]
    simp only [Option.getD_some]
    ring

theorem ledgerWSum_delInner (w : String → String → ℚ) (m : Ledger) (a b : String) :
    ledgerWSum w (delInner m a b) = ledgerWSum w m - w a b * getv m a b := by
  cases hma : mapGet m a with
  | none =>
    have hg : getv m a b = 0 := by
      rw [getv, entryAt_none_left m a b hma]
      rfl
    rw [delInner, hma, hg]
    ring
  | some inn =>
    rw [delInner, hma, ledgerWSum_mapSet, innerWSum_mapDelete, hma]
    have hg : getv m a b = (mapGet inn b).getD 0 := by
      rw [getv, entryAt_some_left m a b inn hma]
    rw [hg]
    simp only [Option.getD_some]
    ring

theorem ledgerWSum_dropIfEmpty (w : String → String → ℚ) (m : Ledger) (a : String) :
    ledgerWSum w (dropIfEmpty m a) = ledgerWSum w m := by
  cases hma : mapGet m a with
  | none => simp only [dropIfEmpty, hma]
  | some inn =>
    simp only [dropIfEmpty, hma]
    by_cases hlen : inn.length = 0
    · rw [if_pos hlen, ledgerWSum_mapDelete, hma]
      have hinn : inn = [] := List.length_eq_zero.1 hlen
      simp [hinn, innerWSum_nil]
    · rw [if_neg hlen]

/-! ### Materialization and rounding -/

theorem mem_materialize_entry (m : Ledger) (d : Debt) (h : d ∈ materialize m) :
    ∃ p ∈ m, ∃ q ∈ p.2, d = ⟨p.1, q.1, round2 q.2⟩ ∧ 1/100 ≤ q.2 := by
  rw [materialize] at h
  simp only [List.mem_flatMap] at h
  obtain ⟨p, hp, hd⟩ := h
  simp only [List.mem_filterMap] at hd
  obtain ⟨q, hq, hqd⟩ := hd
  by_cases hv : 1/100 ≤ q.2
  · rw [if_pos hv] at hqd
    exact ⟨p, hp, q, hq, (Option.some_injective _ hqd).symm, hv⟩
  · rw [if_neg hv] at hqd
    cases hqd

theorem round2_ge_cent (v : ℚ) (h : 1/100 ≤ v) : 1/100 ≤ round2 v := by
  rw [round2]
  have h2 : (1 : ℤ) ≤ round ((100 : ℚ) * v) := by
    rw [round_eq, Int.le_floor]
    push_cast
    linarith
  have h3 : (1 : ℚ) ≤ ((round ((100 : ℚ) * v) : ℤ) : ℚ) := by exact_mod_cast h2
  linarith

theorem round2_idem (v : ℚ) : round2 (round2 v) = round2 v := by
  rw [round2, round2]
  congr 1
  have h : (100 : ℚ) * (((round ((100 : ℚ) * v) : ℤ) : ℚ) / 100) =
      ((round ((100 : ℚ) * v) : ℤ) : ℚ) := by
    ring
  rw [h, round_intCast]

theorem ledgerSum_eq_wsum (m : Ledger) : ledgerSum m = ledgerWSum (fun _ _ => 1) m := by
  induction m with
  | nil => rfl
  | cons hd t ih =>
    obtain ⟨k', inn⟩ := hd
    rw [ledgerWSum_cons]
    simp only [ledgerSum, List.map_cons, List.sum_cons] at ih ⊢
    rw [ih]
    congr 1
    induction inn with
    | nil => rfl
    | cons q t2 ih2 =>
      rw [innerWSum_cons]
      simp only [List.map_cons, List.sum_cons] at ih2 ⊢
      rw [ih2]
      ring

/-! ### getv forms of the update lemmas -/

theorem getv_addDebt_self (m : Ledger) (a b : String) (t : ℚ) :
    getv (addDebt m a b t) a b = getv m a b + t := by
  rw [getv, entryAt_addDebt_self]
  rfl

theorem getv_addDebt_ne (m : Ledger) (a b c d : String) (t : ℚ)
    (h : ¬ (c = a ∧ d = b)) : getv (addDebt m a b t) c d = getv m c d := by
  rw [getv, entryAt_addDebt_ne m a b c d t h, getv]

theorem getv_setInner_self (m : Ledger) (a b : String) (v : ℚ)
    (h : (mapGet m a).isSome) : getv (setInner m a b v) a b = v := by
  rw [getv, entryAt_setInner_self m a b v h]
  rfl

theorem getv_setInner_ne (m : Ledger) (a b c d : String) (v : ℚ)
    (h : ¬ (c = a ∧ d = b)) : getv (setInner m a b v) c d = getv m c d := by
  rw [getv, entryAt_setInner_ne m a b c d v h, getv]

theorem getv_nonneg_of_pos_isSome (m : Ledger) (a b : String) (h : 0 < getv m a b) :
    (mapGet m a).isSome := by
  cases hma : mapGet m a with
  | none =>
    rw [getv, entryAt_none_left m a b hma] at h
    norm_num at h
  | some inn => rfl

/-! ### Phase 1 accumulation -/

theorem phase1_inner_count (payer : String) (s : ℚ) (p : String) (hp : ¬ p = payer)
    (l : List String) : ∀ m : Ledger,
      getv (l.foldl (fun m2 participant =>
        if participant = payer then m2 else addDebt m2 participant payer s) m) p payer
      = getv m p payer + (l.count p : ℚ) * s := by
  induction l with
  | nil => intro m; simp
  | cons q l ih =>
    intro m
    by_cases hq : q = payer
    · have hqp : ¬ q = p := by
        rw [hq]
        exact fun hh => hp hh.symm
      simp only [List.foldl_cons, if_pos hq]
      rw [ih m]
      rw [List.count_cons]
      simp [hqp]
    · simp only [List.foldl_cons, if_neg hq]
      rw [ih]
      by_cases hqp : q = p
      · subst hqp
        rw [getv_addDebt_self]
        rw [List.count_cons]
        simp
        ring
      · rw [getv_addDebt_ne m q payer p payer s
          (fun hh => hqp hh.1.symm)]
        rw [List.count_cons]
        have hpq : ¬ p = q := fun hh => hqp hh.symm
        simp [hpq]
        exact Or.inl hqp

theorem foldl_filter_skip {β : Type} (f : Ledger → β → Ledger) (pd : β → Bool)
    (hf : ∀ m t, pd t = false → f m t = m) :
    ∀ (l : List β) (m : Ledger), (l.filter pd).foldl f m = l.foldl f m := by
  intro l
  induction l with
  | nil => intro m; rfl
  | cons t l ih =>
    intro m
    cases hpt : pd t with
    | false =>
      rw [List.filter_cons, if_neg (by simp [hpt]), List.foldl_cons, hf m t hpt, ih]
    | true =>
      rw [List.filter_cons, if_pos (by simp [hpt]), List.foldl_cons, List.foldl_cons, ih]

/-! ### Net position conservation -/

theorem netw_self (p a : String) : netw p a a = 0 := by
  simp [netw]

theorem netw_antisymm (p a b : String) : netw p b a = -(netw p a b) := by
  simp [netw]

theorem netposL_addDebt (m : Ledger) (a b : String) (t : ℚ) (p : String) :
    netposL (addDebt m a b t) p = netposL m p + netw p a b * t :=
  ledgerWSum_addDebt (netw p) m a b t

theorem rawNet_nil (p : String) : rawNet [] p = 0 := rfl

theorem rawNet_cons (t : Transaction) (l : List Transaction) (p : String) :
    rawNet (t :: l) p =
      (if t.participants.length = 0 then 0
        else
          (t.amount / (t.participants.length : ℚ)) *
            ((if t.paid_by = p then
                (t.participants.length : ℚ) - ((t.participants.count t.paid_by : ℕ) : ℚ)
              else 0)
              - (if p = t.paid_by then 0 else ((t.participants.count p : ℕ) : ℚ))))
      + rawNet l p := by
  simp [rawNet]

theorem rawNet_bracket (payer p q : String) (l : List String) :
    ((if payer = p then ((q :: l).length : ℚ) - (((q :: l).count payer : ℕ) : ℚ) else 0)
      - (if p = payer then 0 else (((q :: l).count p : ℕ) : ℚ)))
    = ((if payer = p then (l.length : ℚ) - ((l.count payer : ℕ) : ℚ) else 0)
      - (if p = payer then 0 else ((l.count p : ℕ) : ℚ)))
      + (if q = payer then 0 else netw p q payer) := by
  rw [List.length_cons, List.count_cons, List.count_cons, netw]
  split_ifs <;> push_cast <;> try ring
  all_goals simp_all
  all_goals push_cast
  all_goals try ring

theorem netposL_phase1_inner (payer : String) (s : ℚ) (p : String) (l : List String) :
    ∀ m : Ledger,
      netposL (l.foldl (fun m2 participant =>
        if participant = payer then m2 else addDebt m2 participant payer s) m) p
      = netposL m p +
        ((if payer = p then (l.length : ℚ) - ((l.count payer : ℕ) : ℚ) else 0)
          - (if p = payer then 0 else ((l.count p : ℕ) : ℚ))) * s := by
  induction l with
  | nil => intro m; simp
  | cons q l ih =>
    intro m
    rw [List.foldl_cons]
    by_cases hq : q = payer
    · rw [if_pos hq, ih m, rawNet_bracket payer p q l, if_pos hq]
      ring
    · rw [if_neg hq, ih (addDebt m q payer s), netposL_addDebt,
        rawNet_bracket payer p q l, if_neg hq]
      ring

theorem netposL_phase1 (ts : List Transaction) (p : String) :
    netposL (phase1 ts) p = rawNet ts p := by
  rw [phase1]
  have H : ∀ (l : List Transaction) (m : Ledger),
      netposL (l.foldl (fun m t =>
        if t.participants.length = 0 then m
        else
          let splitAmount := t.amount / (t.participants.length : ℚ)
          t.participants.foldl (fun m2 participant =>
            if participant = t.paid_by then m2
            else addDebt m2 participant t.paid_by splitAmount) m) m) p
      = netposL m p + rawNet l p := by
    intro l
    induction l with
    | nil => intro m; simp [rawNet_nil]
    | cons t l ih =>
      intro m
      rw [List.foldl_cons, rawNet_cons]
      by_cases hlen : t.participants.length = 0
      · simp only [if_pos hlen]
        rw [ih m]
        ring
      · simp only [if_neg hlen]
        rw [ih, netposL_phase1_inner t.paid_by _ p t.participants m]
        ring
  rw [H ts []]
  have h0 : netposL [] p = 0 := rfl
  rw [h0, zero_add]

theorem setInner_isSome_preserved (m : Ledger) (a b k : String) (v : ℚ)
    (h : (mapGet m k).isSome) : (mapGet (setInner m a b v) k).isSome := by
  by_cases hka : k = a
  · subst hka
    exact mapGet_setInner_self_isSome m k b v h
  · rw [mapGet_setInner_other m a b k v hka]
    exact h

theorem netposL_setInner (m : Ledger) (a b : String) (v : ℚ) (p : String) (inn : InnerMap)
    (hma : mapGet m a = some inn) :
    netposL (setInner m a b v) p = netposL m p + netw p a b * (v - getv m a b) :=
  ledgerWSum_setInner (netw p) m a b v inn hma

theorem netposL_phase2step (m : Ledger) (pro : List String) (pr : String × String)
    (p : String) (hpres : (mapGet m pr.1).isSome) :
    netposL (phase2step (m, pro) pr).1 p = netposL m p := by
  obtain ⟨a, b⟩ := pr
  simp only at hpres
  by_cases hkey : pairKeyStr a b ∈ pro
  · simp only [phase2step, if_pos hkey]
  · by_cases hy : 0 < getv m b a
    · simp only [phase2step, if_neg hkey, if_pos hy]
      set v1 : ℚ := if getv m b a < getv m a b then abs (getv m a b - getv m b a) else 0
        with hv1
      set v2 : ℚ := if getv m a b < getv m b a then abs (getv m a b - getv m b a) else 0
        with hv2
      split
      next hS =>
        obtain ⟨inn, hinn⟩ := Option.isSome_iff_exists.1 hpres
        obtain ⟨inn2, hinn2⟩ := Option.isSome_iff_exists.1 hS
        rw [netposL_setInner _ b a _ p inn2 hinn2, netposL_setInner m a b _ p inn hinn]
        by_cases hab : b = a
        · subst hab
          rw [netw_self]
          ring
        · have hd : v1 - getv m a b = v2 - getv m b a := by
            rw [hv1, hv2]
            rcases lt_trichotomy (getv m a b) (getv m b a) with hlt | heq | hgt
            · rw [if_neg (not_lt.2 hlt.le), if_pos hlt, abs_of_neg (by linarith)]
              ring
            · rw [if_neg (by rw [heq]; exact lt_irrefl _),
                if_neg (by rw [heq]; exact lt_irrefl _), heq]
            · rw [if_pos hgt, if_neg (not_lt.2 hgt.le), abs_of_pos (by linarith)]
              ring
          rw [getv_setInner_ne m a b b a _ (fun hh => hab hh.1),
            netw_antisymm p a b, hd]
          ring
      next hS =>
        exfalso
        apply hS
        by_cases hab : b = a
        · subst hab
          exact mapGet_setInner_self_isSome m b b _ hpres
        · rw [mapGet_setInner_other m a b b _ hab]
          exact getv_nonneg_of_pos_isSome m b a hy
    · simp only [phase2step, if_neg hkey, if_neg hy]

theorem phase2step_isSome_preserved (st : Ledger × List String) (pr : String × String)
    (k : String) (h : (mapGet st.1 k).isSome) :
    (mapGet (phase2step st pr).1 k).isSome := by
  obtain ⟨m, pro⟩ := st
  obtain ⟨a, b⟩ := pr
  simp only at h
  by_cases hkey : pairKeyStr a b ∈ pro
  · simpa only [phase2step, if_pos hkey] using h
  · by_cases hy : 0 < getv m b a
    · simp only [phase2step, if_neg hkey, if_pos hy]
      set v1 : ℚ := if getv m b a < getv m a b then abs (getv m a b - getv m b a) else 0
        with hv1
      set v2 : ℚ := if getv m a b < getv m b a then abs (getv m a b - getv m b a) else 0
        with hv2
      split
      · exact setInner_isSome_preserved _ b a k _ (setInner_isSome_preserved m a b k _ h)
      · exact setInner_isSome_preserved m a b k _ h
    · simpa only [phase2step, if_neg hkey, if_neg hy] using h

theorem ledgerPairs_mem_isSome (m : Ledger) (pr : String × String)
    (h : pr ∈ ledgerPairs m) : (mapGet m pr.1).isSome := by
  rw [ledgerPairs] at h
  simp only [List.mem_flatMap, List.mem_map] at h
  obtain ⟨e, he, q, hq, hpr⟩ := h
  apply isSome_of_mem_keys
  rw [← hpr]
  simp only [keys]
  exact List.mem_map_of_mem Prod.fst he

theorem netposL_phase2net (m0 : Ledger) (p : String) :
    netposL (phase2net m0) p = netposL m0 p := by
  rw [phase2net]
  have H : ∀ (P : List (String × String)) (st : Ledger × List String),
      (∀ pr ∈ P, (mapGet st.1 pr.1).isSome) →
      netposL (P.foldl phase2step st).1 p = netposL st.1 p := by
    intro P
    induction P with
    | nil => intro st hpres; rfl
    | cons pr P ih =>
      intro st hpres
      rw [List.foldl_cons]
      rw [ih (phase2step st pr)
        (fun q hq => phase2step_isSome_preserved st pr q.1 (hpres q (List.mem_cons_of_mem _ hq)))]
      obtain ⟨m, pro⟩ := st
      exact netposL_phase2step m pro pr p (hpres pr (List.mem_cons_self _ _))
  exact H (ledgerPairs m0) (m0, []) (fun pr hpr => ledgerPairs_mem_isSome m0 pr hpr)


/-! ### The no-self-debt invariant -/

theorem NoSelfL_addDebt (m : Ledger) (a b : String) (v : ℚ)
    (hm : NoSelfL m) (hba : b ≠ a) : NoSelfL (addDebt m a b v) := by
  intro p hp q hq
  rcases mem_mapSet _ _ _ _ hp with hpe | hpm
  · subst hpe
    rcases mem_mapSet _ _ _ _ hq with hqe | hqm
    · rw [hqe]
      exact hba
    · cases hma : mapGet m a with
      | none =>
        rw [hma] at hqm
        simp at hqm
      | some inn =>
        rw [hma] at hqm
        simp only [Option.getD_some] at hqm
        exact hm (a, inn) (mem_of_mapGet_eq_some m a inn hma) q hqm
  · exact hm p hpm q hq

theorem NoSelfL_setInner (m : Ledger) (a b : String) (v : ℚ)
    (hm : NoSelfL m) (hba : b ≠ a) : NoSelfL (setInner m a b v) := by
  cases hma : mapGet m a with
  | none => rw [setInner, hma]; exact hm
  | some inn =>
    rw [setInner, hma]
    intro p hp q hq
    rcases mem_mapSet _ _ _ _ hp with hpe | hpm
    · subst hpe
      rcases mem_mapSet _ _ _ _ hq with hqe | hqm
      · rw [hqe]
        exact hba
      · exact hm (a, inn) (mem_of_mapGet_eq_some m a inn hma) q hqm
    · exact hm p hpm q hq

theorem NoSelfL_delInner (m : Ledger) (a b : String)
    (hm : NoSelfL m) : NoSelfL (delInner m a b) := by
  cases hma : mapGet m a with
  | none => rw [delInner, hma]; exact hm
  | some inn =>
    rw [delInner, hma]
    intro p hp q hq
    rcases mem_mapSet _ _ _ _ hp with hpe | hpm
    · subst hpe
      exact hm (a, inn) (mem_of_mapGet_eq_some m a inn hma) q (mem_mapDelete _ _ _ hq)
    · exact hm p hpm q hq

theorem NoSelfL_mapDelete (m : Ledger) (a : String)
    (hm : NoSelfL m) : NoSelfL (mapDelete m a) :=
  fun p hp q hq => hm p (mem_mapDelete _ _ _ hp) q hq

theorem NoSelfL_dropIfEmpty (m : Ledger) (a : String)
    (hm : NoSelfL m) : NoSelfL (dropIfEmpty m a) := by
  cases hma : mapGet m a with
  | none => rw [dropIfEmpty, hma]; exact hm
  | some inn =>
    simp only [dropIfEmpty, hma]
    by_cases hlen : inn.length = 0
    · rw [if_pos hlen]
      exact NoSelfL_mapDelete m a hm
    · rw [if_neg hlen]
      exact hm

theorem NoSelfL_phase1 (ts : List Transaction) : NoSelfL (phase1 ts) := by
  rw [phase1]
  have Hinner : ∀ (payer : String) (s : ℚ) (l : List String) (m : Ledger), NoSelfL m →
      NoSelfL (l.foldl (fun m2 participant =>
        if participant = payer then m2 else addDebt m2 participant payer s) m) := by
    intro payer s l
    induction l with
    | nil => intro m hm; exact hm
    | cons q l ih =>
      intro m hm
      rw [List.foldl_cons]
      by_cases hq : q = payer
      · rw [if_pos hq]
        exact ih m hm
      · rw [if_neg hq]
        exact ih _ (NoSelfL_addDebt m q payer s hm (fun hh => hq hh.symm))
  have H : ∀ (l : List Transaction) (m : Ledger), NoSelfL m →
      NoSelfL (l.foldl (fun m t =>
        if t.participants.length = 0 then m
        else
          let splitAmount := t.amount / (t.participants.length : ℚ)
          t.participants.foldl (fun m2 participant =>
            if participant = t.paid_by then m2
            else addDebt m2 participant t.paid_by splitAmount) m) m) := by
    intro l
    induction l with
    | nil => intro m hm; exact hm
    | cons t l ih =>
      intro m hm
      rw [List.foldl_cons]
      by_cases hlen : t.participants.length = 0
      · rw [if_pos hlen]
        exact ih m hm
      · simp only [if_neg hlen]
        exact ih _ (Hinner t.paid_by _ t.participants m hm)
  exact H ts [] (fun p hp => absurd hp (List.not_mem_nil p))

theorem ledgerPairs_ne (m : Ledger) (hm : NoSelfL m) (pr : String × String)
    (h : pr ∈ ledgerPairs m) : pr.2 ≠ pr.1 := by
  rw [ledgerPairs] at h
  simp only [List.mem_flatMap, List.mem_map] at h
  obtain ⟨e, he, q, hq, hpr⟩ := h
  have := hm e he q hq
  rw [← hpr]
  exact this

theorem NoSelfL_phase2step (st : Ledger × List String) (pr : String × String)
    (hm : NoSelfL st.1) (hne : pr.2 ≠ pr.1) : NoSelfL (phase2step st pr).1 := by
  obtain ⟨m, pro⟩ := st
  obtain ⟨a, b⟩ := pr
  simp only at hm hne
  by_cases hkey : pairKeyStr a b ∈ pro
  · simpa only [phase2step, if_pos hkey] using hm
  · by_cases hy : 0 < getv m b a
    · simp only [phase2step, if_neg hkey, if_pos hy]
      set v1 : ℚ := if getv m b a < getv m a b then abs (getv m a b - getv m b a) else 0
        with hv1
      set v2 : ℚ := if getv m a b < getv m b a then abs (getv m a b - getv m b a) else 0
        with hv2
      split
      · exact NoSelfL_setInner _ b a v2
          (NoSelfL_setInner m a b v1 hm hne) (fun hh => hne hh.symm)
      · exact NoSelfL_setInner m a b v1 hm hne
    · simpa only [phase2step, if_neg hkey, if_neg hy] using hm

theorem NoSelfL_phase2net (m0 : Ledger) (hm : NoSelfL m0) : NoSelfL (phase2net m0) := by
  rw [phase2net]
  have H : ∀ (P : List (String × String)) (st : Ledger × List String),
      NoSelfL st.1 → (∀ pr ∈ P, pr.2 ≠ pr.1) →
      NoSelfL (P.foldl phase2step st).1 := by
    intro P
    induction P with
    | nil => intro st h _; exact h
    | cons pr P ih =>
      intro st h hprs
      rw [List.foldl_cons]
      exact ih (phase2step st pr)
        (NoSelfL_phase2step st pr h (hprs pr (List.mem_cons_self _ _)))
        (fun q hq => hprs q (List.mem_cons_of_mem _ hq))
  exact H (ledgerPairs m0) (m0, []) hm (fun pr hpr => ledgerPairs_ne m0 hm pr hpr)

theorem mem_cleanup (m : Ledger) (p : String × InnerMap) (hp : p ∈ cleanup m) :
    ∃ inn, (p.1, inn) ∈ m ∧ ∀ q ∈ p.2, q ∈ inn := by
  rw [cleanup] at hp
  simp only [List.mem_filter, List.mem_map] at hp
  obtain ⟨⟨e, he, hpe⟩, _⟩ := hp
  refine ⟨e.2, ?_, ?_⟩
  · rw [← hpe]
    exact he
  · intro q hq
    rw [← hpe] at hq
    simp only at hq
    exact List.mem_of_mem_filter hq

theorem NoSelfL_cleanup (m : Ledger) (hm : NoSelfL m) : NoSelfL (cleanup m) := by
  intro p hp q hq
  obtain ⟨inn, hinn, hsub⟩ := mem_cleanup m p hp
  exact hm (p.1, inn) hinn q (hsub q hq)

/-! ### Characterization of the Phase 3 scan -/

theorem findChainC_some (A B : String) (x : ℚ) (inn : InnerMap) (ch : ChainInfo)
    (h : findChainC A B x inn = some ch) :
    ch.debtorA = A ∧ ch.intermediaryB = B ∧ ch.amountAtoB = x ∧
      (ch.creditorC, ch.amountBtoC) ∈ inn ∧ ch.creditorC ≠ A ∧
      1/100 ≤ min x ch.amountBtoC := by
  induction inn with
  | nil => cases h
  | cons q rest ih =>
    obtain ⟨c, y⟩ := q
    rw [findChainC] at h
    by_cases hc : c = A
    · rw [if_pos hc] at h
      obtain ⟨h1, h2, h3, h4, h5, h6⟩ := ih h
      exact ⟨h1, h2, h3, List.mem_cons_of_mem _ h4, h5, h6⟩
    · rw [if_neg hc] at h
      by_cases hmin : min x y < 1/100
      · rw [if_pos hmin] at h
        obtain ⟨h1, h2, h3, h4, h5, h6⟩ := ih h
        exact ⟨h1, h2, h3, List.mem_cons_of_mem _ h4, h5, h6⟩
      · rw [if_neg hmin] at h
        cases h
        exact ⟨rfl, rfl, rfl, List.mem_cons_self _ _, hc, not_lt.1 hmin⟩

theorem findChainB_some (m : Ledger) (A : String) (inn : InnerMap) (ch : ChainInfo)
    (h : findChainB m A inn = some ch) :
    ch.debtorA = A ∧ (ch.intermediaryB, ch.amountAtoB) ∈ inn ∧
      (∃ innB, mapGet m ch.intermediaryB = some innB ∧
        (ch.creditorC, ch.amountBtoC) ∈ innB) ∧
      ch.creditorC ≠ A ∧ 1/100 ≤ min ch.amountAtoB ch.amountBtoC := by
  induction inn with
  | nil => cases h
  | cons q rest ih =>
    obtain ⟨B, x⟩ := q
    rw [findChainB] at h
    cases hB : mapGet m B with
    | none =>
      rw [hB] at h
      obtain ⟨h1, h2, h3, h4, h5⟩ := ih h
      exact ⟨h1, List.mem_cons_of_mem _ h2, h3, h4, h5⟩
    | some innB =>
      simp only [hB] at h
      by_cases hlen : innB.length = 0
      · rw [if_pos hlen] at h
        obtain ⟨h1, h2, h3, h4, h5⟩ := ih h
        exact ⟨h1, List.mem_cons_of_mem _ h2, h3, h4, h5⟩
      · rw [if_neg hlen] at h
        cases hfc : findChainC A B x innB with
        | some ch2 =>
          rw [hfc] at h
          have heq : ch2 = ch := Option.some_injective _ h
          subst heq
          obtain ⟨h1, h2, h3, h4, h5, h6⟩ := findChainC_some A B x innB ch2 hfc
          refine ⟨h1, ?_, ⟨innB, ?_, h4⟩, h5, ?_⟩
          · rw [h2, h3]
            exact List.mem_cons_self _ _
          · rw [h2]
            exact hB
          · rw [h3]
            exact h6
        | none =>
          rw [hfc] at h
          obtain ⟨h1, h2, h3, h4, h5⟩ := ih h
          exact ⟨h1, List.mem_cons_of_mem _ h2, h3, h4, h5⟩

theorem findChainA_some (m : Ledger) (l : Ledger) (ch : ChainInfo)
    (h : findChainA m l = some ch) :
    (∃ innA, (ch.debtorA, innA) ∈ l ∧ (ch.intermediaryB, ch.amountAtoB) ∈ innA) ∧
      (∃ innB, mapGet m ch.intermediaryB = some innB ∧
        (ch.creditorC, ch.amountBtoC) ∈ innB) ∧
      ch.creditorC ≠ ch.debtorA ∧ 1/100 ≤ min ch.amountAtoB ch.amountBtoC := by
  induction l with
  | nil => cases h
  | cons e rest ih =>
    obtain ⟨A, innA⟩ := e
    rw [findChainA] at h
    cases hfb : findChainB m A innA with
    | some ch2 =>
      rw [hfb] at h
      have heq : ch2 = ch := Option.some_injective _ h
      subst heq
      obtain ⟨h1, h2, h3, h4, h5⟩ := findChainB_some m A innA ch2 hfb
      refine ⟨⟨innA, ?_, h2⟩, h3, ?_, h5⟩
      · rw [h1]
        exact List.mem_cons_self _ _
      · rw [h1]
        exact h4
    | none =>
      rw [hfb] at h
      obtain ⟨⟨innA2, hA2, hB2⟩, h3, h4, h5⟩ := ih h
      exact ⟨⟨innA2, List.mem_cons_of_mem _ hA2, hB2⟩, h3, h4, h5⟩

theorem findChain_some (m : Ledger) (ch : ChainInfo) (h : findChain m = some ch) :
    (∃ innA, (ch.debtorA, innA) ∈ m ∧ (ch.intermediaryB, ch.amountAtoB) ∈ innA) ∧
      (∃ innB, mapGet m ch.intermediaryB = some innB ∧
        (ch.creditorC, ch.amountBtoC) ∈ innB) ∧
      ch.creditorC ≠ ch.debtorA ∧ 1/100 ≤ min ch.amountAtoB ch.amountBtoC :=
  findChainA_some m m ch h

theorem NoSelfL_collapseChain (m : Ledger) (ch : ChainInfo) (hm : NoSelfL m)
    (h : findChain m = some ch) : NoSelfL (collapseChain m ch) := by
  obtain ⟨⟨innA, hA, hB⟩, ⟨innB, hmB, hC⟩, hCA, hmin⟩ := findChain_some m ch h
  have hBA : ch.intermediaryB ≠ ch.debtorA := hm (ch.debtorA, innA) hA _ hB
  have hCB : ch.creditorC ≠ ch.intermediaryB :=
    hm (ch.intermediaryB, innB) (mem_of_mapGet_eq_some m _ innB hmB) _ hC
  have hbase : NoSelfL (setInner (setInner
      (addDebt m ch.debtorA ch.creditorC (min ch.amountAtoB ch.amountBtoC))
      ch.debtorA ch.intermediaryB (ch.amountAtoB - min ch.amountAtoB ch.amountBtoC))
      ch.intermediaryB ch.creditorC (ch.amountBtoC - min ch.amountAtoB ch.amountBtoC)) :=
    NoSelfL_setInner _ _ _ _
      (NoSelfL_setInner _ _ _ _ (NoSelfL_addDebt m _ _ _ hm hCA) hBA) hCB
  rw [collapseChain]
  apply NoSelfL_dropIfEmpty
  apply NoSelfL_dropIfEmpty
  split <;> split <;>
    first
      | exact NoSelfL_delInner _ _ _ (NoSelfL_delInner _ _ _ hbase)
      | exact NoSelfL_delInner _ _ _ hbase
      | exact hbase

theorem NoSelfL_phase3go (n : Nat) : ∀ m : Ledger, NoSelfL m → NoSelfL (phase3go n m) := by
  induction n with
  | zero => intro m hm; exact hm
  | succ k ih =>
    intro m hm
    rw [phase3go]
    cases hfc : findChain m with
    | none => exact hm
    | some ch => exact ih _ (NoSelfL_collapseChain m ch hm hfc)

/-! ### Well-formedness (duplicate-free keys) and non-negativity -/

theorem mapGet_eq_some_of_mem_nodup {α : Type} (m : List (String × α)) (k : String) (v : α)
    (hnd : (keys m).Nodup) (hmem : (k, v) ∈ m) : mapGet m k = some v := by
  induction m with
  | nil => cases hmem
  | cons hd t ih =>
    obtain ⟨k', v'⟩ := hd
    rw [keys_cons, List.nodup_cons] at hnd
    rcases List.mem_cons.1 hmem with he | ht
    · rw [Prod.mk.injEq] at he
      obtain ⟨he1, he2⟩ := he
      rw [mapGet, if_pos he1.symm, he2]
    · have hk : ¬ k' = k := by
        intro hh
        subst hh
        exact hnd.1 (by simpa [keys] using List.mem_map_of_mem Prod.fst ht)
      rw [mapGet, if_neg hk]
      exact ih hnd.2 ht

theorem getv_of_mem (m : Ledger) (inn : InnerMap) (a b : String) (x : ℚ)
    (hw : WFLedger m) (ha : (a, inn) ∈ m) (hb : (b, x) ∈ inn) : getv m a b = x := by
  have hma : mapGet m a = some inn := mapGet_eq_some_of_mem_nodup m a inn hw.1 ha
  have hmb : mapGet inn b = some x :=
    mapGet_eq_some_of_mem_nodup inn b x (hw.2 (a, inn) ha) hb
  rw [getv, entryAt_some_left m a b inn hma, hmb]
  rfl

theorem WFLedger_addDebt (m : Ledger) (a b : String) (v : ℚ)
    (hw : WFLedger m) : WFLedger (addDebt m a b v) := by
  constructor
  · exact keys_nodup_mapSet m a _ hw.1
  · intro p hp
    rcases mem_mapSet _ _ _ _ hp with hpe | hpm
    · subst hpe
      apply keys_nodup_mapSet
      cases hma : mapGet m a with
      | none => simp [keys]
      | some inn =>
        simp only [hma, Option.getD_some]
        exact hw.2 (a, inn) (mem_of_mapGet_eq_some m a inn hma)
    · exact hw.2 p hpm

theorem WFLedger_setInner (m : Ledger) (a b : String) (v : ℚ)
    (hw : WFLedger m) : WFLedger (setInner m a b v) := by
  cases hma : mapGet m a with
  | none => rw [setInner, hma]; exact hw
  | some inn =>
    rw [setInner, hma]
    constructor
    · exact keys_nodup_mapSet m a _ hw.1
    · intro p hp
      rcases mem_mapSet _ _ _ _ hp with hpe | hpm
      · subst hpe
        exact keys_nodup_mapSet inn b v (hw.2 (a, inn) (mem_of_mapGet_eq_some m a inn hma))
      · exact hw.2 p hpm

theorem WFLedger_delInner (m : Ledger) (a b : String)
    (hw : WFLedger m) : WFLedger (delInner m a b) := by
  cases hma : mapGet m a with
  | none => rw [delInner, hma]; exact hw
  | some inn =>
    rw [delInner, hma]
    constructor
    · exact keys_nodup_mapSet m a _ hw.1
    · intro p hp
      rcases mem_mapSet _ _ _ _ hp with hpe | hpm
      · subst hpe
        exact keys_nodup_mapDelete inn b (hw.2 (a, inn) (mem_of_mapGet_eq_some m a inn hma))
      · exact hw.2 p hpm

theorem WFLedger_mapDelete (m : Ledger) (a : String)
    (hw : WFLedger m) : WFLedger (mapDelete m a) :=
  ⟨keys_nodup_mapDelete m a hw.1, fun p hp => hw.2 p (mem_mapDelete _ _ _ hp)⟩

theorem WFLedger_dropIfEmpty (m : Ledger) (a : String)
    (hw : WFLedger m) : WFLedger (dropIfEmpty m a) := by
  cases hma : mapGet m a with
  | none => rw [dropIfEmpty, hma]; exact hw
  | some inn =>
    simp only [dropIfEmpty, hma]
    by_cases hlen : inn.length = 0
    · rw [if_pos hlen]
      exact WFLedger_mapDelete m a hw
    · rw [if_neg hlen]
      exact hw

theorem WFLedger_nil : WFLedger [] :=
  ⟨List.nodup_nil, fun p hp => absurd hp (List.not_mem_nil p)⟩

theorem WFLedger_phase1 (ts : List Transaction) : WFLedger (phase1 ts) := by
  rw [phase1]
  have Hinner : ∀ (payer : String) (s : ℚ) (l : List String) (m : Ledger), WFLedger m →
      WFLedger (l.foldl (fun m2 participant =>
        if participant = payer then m2 else addDebt m2 participant payer s) m) := by
    intro payer s l
    induction l with
    | nil => intro m hm; exact hm
    | cons q l ih =>
      intro m hm
      rw [List.foldl_cons]
      by_cases hq : q = payer
      · rw [if_pos hq]
        exact ih m hm
      · rw [if_neg hq]
        exact ih _ (WFLedger_addDebt m q payer s hm)
  have H : ∀ (l : List Transaction) (m : Ledger), WFLedger m →
      WFLedger (l.foldl (fun m t =>
        if t.participants.length = 0 then m
        else
          let splitAmount := t.amount / (t.participants.length : ℚ)
          t.participants.foldl (fun m2 participant =>
            if participant = t.paid_by then m2
            else addDebt m2 participant t.paid_by splitAmount) m) m) := by
    intro l
    induction l with
    | nil => intro m hm; exact hm
    | cons t l ih =>
      intro m hm
      rw [List.foldl_cons]
      by_cases hlen : t.participants.length = 0
      · rw [if_pos hlen]
        exact ih m hm
      · simp only [if_neg hlen]
        exact ih _ (Hinner t.paid_by _ t.participants m hm)
  exact H ts [] WFLedger_nil

theorem WFLedger_phase2step (st : Ledger × List String) (pr : String × String)
    (hw : WFLedger st.1) : WFLedger (phase2step st pr).1 := by
  obtain ⟨m, pro⟩ := st
  obtain ⟨a, b⟩ := pr
  simp only at hw
  by_cases hkey : pairKeyStr a b ∈ pro
  · simpa only [phase2step, if_pos hkey] using hw
  · by_cases hy : 0 < getv m b a
    · simp only [phase2step, if_neg hkey, if_pos hy]
      set v1 : ℚ := if getv m b a < getv m a b then abs (getv m a b - getv m b a) else 0
        with hv1
      set v2 : ℚ := if getv m a b < getv m b a then abs (getv m a b - getv m b a) else 0
        with hv2
      split
      · exact WFLedger_setInner _ b a v2 (WFLedger_setInner m a b v1 hw)
      · exact WFLedger_setInner m a b v1 hw
    · simpa only [phase2step, if_neg hkey, if_neg hy] using hw

theorem WFLedger_phase2net (m0 : Ledger) (hw : WFLedger m0) : WFLedger (phase2net m0) := by
  rw [phase2net]
  have H : ∀ (P : List (String × String)) (st : Ledger × List String),
      WFLedger st.1 → WFLedger (P.foldl phase2step st).1 := by
    intro P
    induction P with
    | nil => intro st h; exact h
    | cons pr P ih =>
      intro st h
      rw [List.foldl_cons]
      exact ih (phase2step st pr) (WFLedger_phase2step st pr h)
  exact H (ledgerPairs m0) (m0, []) hw

theorem keys_cleanup_sublist (m : Ledger) : (keys (cleanup m)).Sublist (keys m) := by
  rw [cleanup]
  have h1 : keys ((m.map (fun p => (p.1, p.2.filter (fun q => ¬ (q.2 < 1/100))))).filter
      (fun p => ¬ (p.2.length = 0))) =
      ((m.map (fun p => (p.1, p.2.filter (fun q => ¬ (q.2 < 1/100))))).filter
      (fun p => ¬ (p.2.length = 0))).map Prod.fst := rfl
  rw [h1]
  have h2 : (keys m) = (m.map (fun p => (p.1, p.2.filter (fun q => ¬ (q.2 < 1/100))))).map
      Prod.fst := by
    rw [keys, List.map_map]
    rfl
  rw [h2]
  exact List.Sublist.map Prod.fst (List.filter_sublist _)

theorem WFLedger_cleanup (m : Ledger) (hw : WFLedger m) : WFLedger (cleanup m) := by
  constructor
  · exact List.Nodup.sublist (keys_cleanup_sublist m) hw.1
  · intro p hp
    rw [cleanup] at hp
    simp only [List.mem_filter, List.mem_map] at hp
    obtain ⟨⟨e, he, hpe⟩, _⟩ := hp
    rw [← hpe]
    simp only
    have hkeys : keys (e.2.filter (fun q => ¬ (q.2 < 1/100))) =
        (e.2.filter (fun q => ¬ (q.2 < 1/100))).map Prod.fst := rfl
    rw [hkeys]
    have : ((e.2.filter (fun q => ¬ (q.2 < 1/100))).map Prod.fst).Sublist
        (e.2.map Prod.fst) := List.Sublist.map Prod.fst (List.filter_sublist _)
    exact List.Nodup.sublist this (hw.2 e he)

theorem cleanup_min_cent (m : Ledger) : ∀ p ∈ cleanup m, ∀ q ∈ p.2, 1/100 ≤ q.2 := by
  intro p hp q hq
  rw [cleanup] at hp
  simp only [List.mem_filter, List.mem_map] at hp
  obtain ⟨⟨e, he, hpe⟩, _⟩ := hp
  rw [← hpe] at hq
  simp only at hq
  have := (List.mem_filter.1 hq).2
  exact not_lt.1 (by simpa using this)

theorem NonnegL_cleanup (m : Ledger) : NonnegL (cleanup m) :=
  fun p hp q hq => le_trans (by norm_num) (cleanup_min_cent m p hp q hq)

theorem NonnegL_addDebt (m : Ledger) (a b : String) (v : ℚ)
    (hm : NonnegL m) (hv : 0 ≤ v) : NonnegL (addDebt m a b v) := by
  intro p hp q hq
  rcases mem_mapSet _ _ _ _ hp with hpe | hpm
  · subst hpe
    rcases mem_mapSet _ _ _ _ hq with hqe | hqm
    · rw [hqe]
      simp only
      have hold : 0 ≤ (mapGet ((mapGet m a).getD []) b).getD 0 := by
        cases hma : mapGet m a with
        | none => simp [mapGet]
        | some inn =>
          simp only [hma, Option.getD_some]
          cases hmb : mapGet inn b with
          | none => simp
          | some w =>
            simp only [Option.getD_some]
            exact hm (a, inn) (mem_of_mapGet_eq_some m a inn hma) (b, w)
              (mem_of_mapGet_eq_some inn b w hmb)
      linarith
    · cases hma : mapGet m a with
      | none =>
        rw [hma] at hqm
        simp at hqm
      | some inn =>
        rw [hma] at hqm
        simp only [Option.getD_some] at hqm
        exact hm (a, inn) (mem_of_mapGet_eq_some m a inn hma) q hqm
  · exact hm p hpm q hq

theorem NonnegL_setInner (m : Ledger) (a b : String) (v : ℚ)
    (hm : NonnegL m) (hv : 0 ≤ v) : NonnegL (setInner m a b v) := by
  cases hma : mapGet m a with
  | none => rw [setInner, hma]; exact hm
  | some inn =>
    rw [setInner, hma]
    intro p hp q hq
    rcases mem_mapSet _ _ _ _ hp with hpe | hpm
    · subst hpe
      rcases mem_mapSet _ _ _ _ hq with hqe | hqm
      · rw [hqe]
        exact hv
      · exact hm (a, inn) (mem_of_mapGet_eq_some m a inn hma) q hqm
    · exact hm p hpm q hq

theorem NonnegL_delInner (m : Ledger) (a b : String)
    (hm : NonnegL m) : NonnegL (delInner m a b) := by
  cases hma : mapGet m a with
  | none => rw [delInner, hma]; exact hm
  | some inn =>
    rw [delInner, hma]
    intro p hp q hq
    rcases mem_mapSet _ _ _ _ hp with hpe | hpm
    · subst hpe
      exact hm (a, inn) (mem_of_mapGet_eq_some m a inn hma) q (mem_mapDelete _ _ _ hq)
    · exact hm p hpm q hq

theorem NonnegL_mapDelete (m : Ledger) (a : String)
    (hm : NonnegL m) : NonnegL (mapDelete m a) :=
  fun p hp q hq => hm p (mem_mapDelete _ _ _ hp) q hq

theorem NonnegL_dropIfEmpty (m : Ledger) (a : String)
    (hm : NonnegL m) : NonnegL (dropIfEmpty m a) := by
  cases hma : mapGet m a with
  | none => rw [dropIfEmpty, hma]; exact hm
  | some inn =>
    simp only [dropIfEmpty, hma]
    by_cases hlen : inn.length = 0
    · rw [if_pos hlen]
      exact NonnegL_mapDelete m a hm
    · rw [if_neg hlen]
      exact hm

theorem ledgerSum_ge_entry (m : Ledger) (inn : InnerMap) (a b : String) (x : ℚ)
    (hnn : NonnegL m) (ha : (a, inn) ∈ m) (hb : (b, x) ∈ inn) : x ≤ ledgerSum m := by
  have h1 : x ≤ (inn.map (fun q => q.2)).sum := by
    apply List.single_le_sum
    · intro z hz
      simp only [List.mem_map] at hz
      obtain ⟨q, hq, hqz⟩ := hz
      rw [← hqz]
      exact hnn (a, inn) ha q hq
    · exact List.mem_map_of_mem (fun q => q.2) hb
  have h2 : (inn.map (fun q => q.2)).sum ≤ ledgerSum m := by
    rw [ledgerSum]
    apply List.single_le_sum
    · intro z hz
      simp only [List.mem_map] at hz
      obtain ⟨p, hp, hpz⟩ := hz
      rw [← hpz]
      apply List.sum_nonneg
      intro w hw
      simp only [List.mem_map] at hw
      obtain ⟨q, hq, hqw⟩ := hw
      rw [← hqw]
      exact hnn p hp q hq
    · exact List.mem_map_of_mem _ ha
  linarith

theorem ledgerSum_nonneg (m : Ledger) (hnn : NonnegL m) : 0 ≤ ledgerSum m := by
  rw [ledgerSum]
  apply List.sum_nonneg
  intro z hz
  simp only [List.mem_map] at hz
  obtain ⟨p, hp, hpz⟩ := hz
  rw [← hpz]
  apply List.sum_nonneg
  intro w hw
  simp only [List.mem_map] at hw
  obtain ⟨q, hq, hqw⟩ := hw
  rw [← hqw]
  exact hnn p hp q hq

theorem ledgerSum_addDebt (m : Ledger) (a b : String) (v : ℚ) :
    ledgerSum (addDebt m a b v) = ledgerSum m + v := by
  rw [ledgerSum_eq_wsum, ledgerSum_eq_wsum, ledgerWSum_addDebt]
  ring

theorem ledgerSum_setInner (m : Ledger) (a b : String) (v : ℚ) (inn : InnerMap)
    (hma : mapGet m a = some inn) :
    ledgerSum (setInner m a b v) = ledgerSum m + (v - getv m a b) := by
  rw [ledgerSum_eq_wsum, ledgerSum_eq_wsum, ledgerWSum_setInner _ m a b v inn hma]
  ring

theorem ledgerSum_delInner (m : Ledger) (a b : String) :
    ledgerSum (delInner m a b) = ledgerSum m - getv m a b := by
  rw [ledgerSum_eq_wsum, ledgerSum_eq_wsum, ledgerWSum_delInner]
  ring

theorem ledgerSum_dropIfEmpty (m : Ledger) (a : String) :
    ledgerSum (dropIfEmpty m a) = ledgerSum m := by
  rw [ledgerSum_eq_wsum, ledgerSum_eq_wsum, ledgerWSum_dropIfEmpty]

/-! ### Phase 3: each collapse removes at least one cent from the ledger -/

theorem WFLedger_collapseChain (m : Ledger) (ch : ChainInfo)
    (hw : WFLedger m) : WFLedger (collapseChain m ch) := by
  have hbase : WFLedger (setInner (setInner
      (addDebt m ch.debtorA ch.creditorC (min ch.amountAtoB ch.amountBtoC))
      ch.debtorA ch.intermediaryB (ch.amountAtoB - min ch.amountAtoB ch.amountBtoC))
      ch.intermediaryB ch.creditorC (ch.amountBtoC - min ch.amountAtoB ch.amountBtoC)) :=
    WFLedger_setInner _ _ _ _ (WFLedger_setInner _ _ _ _ (WFLedger_addDebt m _ _ _ hw))
  rw [collapseChain]
  apply WFLedger_dropIfEmpty
  apply WFLedger_dropIfEmpty
  split <;> split <;>
    first
      | exact WFLedger_delInner _ _ _ (WFLedger_delInner _ _ _ hbase)
      | exact WFLedger_delInner _ _ _ hbase
      | exact hbase

theorem NonnegL_collapseChain (m : Ledger) (ch : ChainInfo)
    (hnn : NonnegL m) (hmin : 1/100 ≤ min ch.amountAtoB ch.amountBtoC) :
    NonnegL (collapseChain m ch) := by
  have ht : (0 : ℚ) ≤ min ch.amountAtoB ch.amountBtoC := by linarith
  have hxt : (0 : ℚ) ≤ ch.amountAtoB - min ch.amountAtoB ch.amountBtoC := by
    have := min_le_left ch.amountAtoB ch.amountBtoC
    linarith
  have hyt : (0 : ℚ) ≤ ch.amountBtoC - min ch.amountAtoB ch.amountBtoC := by
    have := min_le_right ch.amountAtoB ch.amountBtoC
    linarith
  have hbase : NonnegL (setInner (setInner
      (addDebt m ch.debtorA ch.creditorC (min ch.amountAtoB ch.amountBtoC))
      ch.debtorA ch.intermediaryB (ch.amountAtoB - min ch.amountAtoB ch.amountBtoC))
      ch.intermediaryB ch.creditorC (ch.amountBtoC - min ch.amountAtoB ch.amountBtoC)) :=
    NonnegL_setInner _ _ _ _
      (NonnegL_setInner _ _ _ _ (NonnegL_addDebt m _ _ _ hnn ht) hxt) hyt
  rw [collapseChain]
  apply NonnegL_dropIfEmpty
  apply NonnegL_dropIfEmpty
  split <;> split <;>
    first
      | exact NonnegL_delInner _ _ _ (NonnegL_delInner _ _ _ hbase)
      | exact NonnegL_delInner _ _ _ hbase
      | exact hbase

theorem ledgerSum_collapseChain (m : Ledger) (ch : ChainInfo)
    (hw : WFLedger m) (hns : NoSelfL m) (hnn : NonnegL m)
    (h : findChain m = some ch) :
    ledgerSum (collapseChain m ch) ≤ ledgerSum m - 1/100 := by
  obtain ⟨⟨innA, hA, hB⟩, ⟨innB, hmB, hC⟩, hCA, hmin⟩ := findChain_some m ch h
  have hBA : ch.intermediaryB ≠ ch.debtorA := hns (ch.debtorA, innA) hA _ hB
  have hCB : ch.creditorC ≠ ch.intermediaryB :=
    hns (ch.intermediaryB, innB) (mem_of_mapGet_eq_some m _ innB hmB) _ hC
  have hBC : ch.intermediaryB ≠ ch.creditorC := fun hh => hCB hh.symm
  have hAB : ch.debtorA ≠ ch.intermediaryB := fun hh => hBA hh.symm
  have hgx : getv m ch.debtorA ch.intermediaryB = ch.amountAtoB :=
    getv_of_mem m innA _ _ _ hw hA hB
  have hgy : getv m ch.intermediaryB ch.creditorC = ch.amountBtoC := by
    rw [getv, entryAt_some_left m _ _ innB hmB,
      mapGet_eq_some_of_mem_nodup innB _ _
        (hw.2 (ch.intermediaryB, innB) (mem_of_mapGet_eq_some m _ innB hmB)) hC]
    rfl
  set A := ch.debtorA with hAdef
  set B := ch.intermediaryB with hBdef
  set C := ch.creditorC with hCdef
  set x := ch.amountAtoB with hxdef
  set y := ch.amountBtoC with hydef
  set t := min x y with htdef
  have hxt : 0 ≤ x - t := by
    have := min_le_left x y
    linarith
  have hyt : 0 ≤ y - t := by
    have := min_le_right x y
    linarith
  have htc : 1/100 ≤ t := hmin
  have hm1sum : ledgerSum (addDebt m A C t) = ledgerSum m + t := ledgerSum_addDebt m A C t
  have hpres1 : (mapGet (addDebt m A C t) A).isSome := mapGet_addDebt_self_isSome m A C t
  obtain ⟨inn1, hinn1⟩ := Option.isSome_iff_exists.1 hpres1
  have hg1AB : getv (addDebt m A C t) A B = x := by
    rw [getv_addDebt_ne m A C A B t (fun hh => hBC hh.2)]
    exact hgx
  have hm2sum : ledgerSum (setInner (addDebt m A C t) A B (x - t)) = ledgerSum m := by
    rw [ledgerSum_setInner (addDebt m A C t) A B (x - t) inn1 hinn1, hg1AB, hm1sum]
    ring
  have hpres2B : mapGet (setInner (addDebt m A C t) A B (x - t)) B = some innB := by
    rw [mapGet_setInner_other (addDebt m A C t) A B B (x - t) hBA,
      mapGet_addDebt_other m A C B t hBA]
    exact hmB
  have hg2BC : getv (setInner (addDebt m A C t) A B (x - t)) B C = y := by
    rw [getv_setInner_ne (addDebt m A C t) A B B C (x - t) (fun hh => hBA hh.1)]
    rw [getv_addDebt_ne m A C B C t (fun hh => hBA hh.1)]
    exact hgy
  have hm3sum : ledgerSum (setInner (setInner (addDebt m A C t) A B (x - t)) B C (y - t))
      = ledgerSum m - t := by
    rw [ledgerSum_setInner _ B C (y - t) innB hpres2B, hg2BC, hm2sum]
    ring
  have hg3AB : getv (setInner (setInner (addDebt m A C t) A B (x - t)) B C (y - t)) A B
      = x - t := by
    rw [getv_setInner_ne _ B C A B (y - t) (fun hh => hAB hh.1)]
    exact getv_setInner_self (addDebt m A C t) A B (x - t) hpres1
  have hpres3B : (mapGet (setInner (setInner (addDebt m A C t) A B (x - t)) B C (y - t))
      B).isSome := by
    apply setInner_isSome_preserved
    rw [hpres2B]
    rfl
  have hg3BC : getv (setInner (setInner (addDebt m A C t) A B (x - t)) B C (y - t)) B C
      = y - t := by
    apply getv_setInner_self
    rw [hpres2B]
    rfl
  rw [collapseChain]
  rw [ledgerSum_dropIfEmpty, ledgerSum_dropIfEmpty]
  split
  next h4 =>
    -- inner purge of (A, B) taken
    have hd4sum : ledgerSum (delInner
        (setInner (setInner (addDebt m A C t) A B (x - t)) B C (y - t)) A B)
        = ledgerSum m - t - (x - t) := by
      rw [ledgerSum_delInner, hg3AB, hm3sum]
    have hd4BC : getv (delInner
        (setInner (setInner (addDebt m A C t) A B (x - t)) B C (y - t)) A B) B C
        = y - t := by
      rw [getv, entryAt_delInner_ne _ A B B C (fun hh => hBA hh.1), ← getv]
      exact hg3BC
    split
    next h5 =>
      rw [ledgerSum_delInner, hd4BC, hd4sum]
      linarith
    next h5 =>
      rw [hd4sum]
      linarith
  next h4 =>
    split
    next h5 =>
      rw [ledgerSum_delInner, hg3BC, hm3sum]
      linarith
    next h5 =>
      rw [hm3sum]
      linarith

theorem phase3go_fixpoint (n : Nat) : ∀ m : Ledger,
    WFLedger m → NoSelfL m → NonnegL m → 100 * ledgerSum m ≤ (n : ℚ) →
    findChain (phase3go (n + 1) m) = none := by
  induction n with
  | zero =>
    intro m hw hns hnn hsum
    rw [phase3go]
    cases hfc : findChain m with
    | none => exact hfc
    | some ch =>
      exfalso
      obtain ⟨⟨innA, hA, hB⟩, _, _, hmin⟩ := findChain_some m ch hfc
      have hx : 1/100 ≤ ch.amountAtoB := le_trans hmin (min_le_left _ _)
      have hle : ch.amountAtoB ≤ ledgerSum m := ledgerSum_ge_entry m innA _ _ _ hnn hA hB
      norm_num at hsum
      linarith
  | succ k ih =>
    intro m hw hns hnn hsum
    rw [phase3go]
    cases hfc : findChain m with
    | none => exact hfc
    | some ch =>
      have hmin : 1/100 ≤ min ch.amountAtoB ch.amountBtoC :=
        (findChain_some m ch hfc).2.2.2
      have hsum2 : ledgerSum (collapseChain m ch) ≤ ledgerSum m - 1/100 :=
        ledgerSum_collapseChain m ch hw hns hnn hfc
      apply ih
      · exact WFLedger_collapseChain m ch hw
      · exact NoSelfL_collapseChain m ch hns hfc
      · exact NonnegL_collapseChain m ch hnn hmin
      · push_cast at hsum
        linarith

/-! ### The canonical pair key: symmetry and injectivity for arrow-free names -/

theorem charListLe_total (l1 l2 : List Char) (h : charListLe l1 l2 = false) :
    charListLe l2 l1 = true := by
  induction l1 generalizing l2 with
  | nil => cases h
  | cons a as ih =>
    cases l2 with
    | nil => rfl
    | cons b bs =>
      rw [charListLe] at h
      rw [charListLe]
      by_cases hab : a < b
      · rw [if_pos hab] at h
        cases h
      · rw [if_neg hab] at h
        by_cases hba : b < a
        · rw [if_pos hba]
        · rw [if_neg hba] at h
          rw [if_neg hba, if_neg hab]
          exact ih bs h

theorem charListLe_antisymm (l1 l2 : List Char) (h1 : charListLe l1 l2 = true)
    (h2 : charListLe l2 l1 = true) : l1 = l2 := by
  induction l1 generalizing l2 with
  | nil =>
    cases l2 with
    | nil => rfl
    | cons b bs => cases h2
  | cons a as ih =>
    cases l2 with
    | nil => cases h1
    | cons b bs =>
      rw [charListLe] at h1 h2
      by_cases hab : a < b
      · rw [if_pos hab] at h1
        rw [if_neg (lt_asymm hab), if_pos hab] at h2
        cases h2
      · rw [if_neg hab] at h1
        by_cases hba : b < a
        · rw [if_pos hba] at h1
          cases h1
        · rw [if_neg hba] at h1
          rw [if_neg hba, if_neg hab] at h2
          have hchar : a = b := le_antisymm (not_lt.1 hba) (not_lt.1 hab)
          rw [hchar, ih bs h1 h2]

theorem str_data_ext (a b : String) (h : a.data = b.data) : a = b := by
  cases a
  cases b
  exact congrArg String.mk h

theorem strLe_total (a b : String) (h : strLe a b = false) : strLe b a = true :=
  charListLe_total a.data b.data h

theorem strLe_antisymm (a b : String) (h1 : strLe a b = true) (h2 : strLe b a = true) :
    a = b :=
  str_data_ext a b (charListLe_antisymm a.data b.data h1 h2)

theorem pairKeyStr_symm (a b : String) : pairKeyStr a b = pairKeyStr b a := by
  rw [pairKeyStr, pairKeyStr]
  by_cases hab : strLe a b = true
  · by_cases hba : strLe b a = true
    · rw [if_pos hab, if_pos hba, strLe_antisymm a b hab hba]
    · rw [if_pos hab, if_neg hba]
  · have hba : strLe b a = true := strLe_total a b (by simpa using hab)
    rw [if_neg hab, if_pos hba]

theorem append_sep_inj (x : Char) : ∀ (l1 l2 r1 r2 : List Char),
    x ∉ l1 → x ∉ l2 → l1 ++ x :: r1 = l2 ++ x :: r2 → l1 = l2 ∧ r1 = r2 := by
  intro l1
  induction l1 with
  | nil =>
    intro l2 r1 r2 _ h2 h
    cases l2 with
    | nil => simpa using h
    | cons c cs =>
      simp only [List.nil_append, List.cons_append, List.cons.injEq] at h
      exact absurd (h.1 ▸ List.mem_cons_self c cs) (by
        rw [← h.1] at h2
        intro _
        exact h2 (List.mem_cons_self x cs))
  | cons a as ih =>
    intro l2 r1 r2 h1 h2 h
    cases l2 with
    | nil =>
      simp only [List.cons_append, List.nil_append, List.cons.injEq] at h
      exact absurd (h.1 ▸ List.mem_cons_self a as) (by
        intro _
        exact h1 (h.1 ▸ List.mem_cons_self a as))
    | cons c cs =>
      simp only [List.cons_append, List.cons.injEq] at h
      have hx1 : x ∉ as := fun hh => h1 (List.mem_cons_of_mem a hh)
      have hx2 : x ∉ cs := fun hh => h2 (List.mem_cons_of_mem c hh)
      obtain ⟨hac, hrest⟩ := h
      obtain ⟨hl, hr⟩ := ih cs r1 r2 hx1 hx2 hrest
      exact ⟨by rw [hac, hl], hr⟩

theorem arrow_join_inj (a b c d : String) (ha : noArrow a) (hb : noArrow b)
    (hc : noArrow c) (hd : noArrow d)
    (h : a ++ "→" ++ b = c ++ "→" ++ d) : a = c ∧ b = d := by
  have hdata : a.data ++ '→' :: b.data = c.data ++ '→' :: d.data := by
    have := congrArg String.data h
    simpa [String.data_append] using this
  obtain ⟨h1, h2⟩ := append_sep_inj '→' a.data c.data b.data d.data ha hc hdata
  exact ⟨str_data_ext a c h1, str_data_ext b d h2⟩

theorem pairKeyStr_inj (a b c d : String) (ha : noArrow a) (hb : noArrow b)
    (hc : noArrow c) (hd : noArrow d) (h : pairKeyStr a b = pairKeyStr c d) :
    (a = c ∧ b = d) ∨ (a = d ∧ b = c) := by
  rw [pairKeyStr, pairKeyStr] at h
  by_cases h1 : strLe a b = true
  · rw [if_pos h1] at h
    by_cases h2 : strLe c d = true
    · rw [if_pos h2] at h
      exact Or.inl (arrow_join_inj a b c d ha hb hc hd h)
    · rw [if_neg h2] at h
      exact Or.inr (arrow_join_inj a b d c ha hb hd hc h)
  · rw [if_neg h1] at h
    by_cases h2 : strLe c d = true
    · rw [if_pos h2] at h
      obtain ⟨hbc, had⟩ := arrow_join_inj b a c d hb ha hc hd h
      exact Or.inr ⟨had, hbc⟩
    · rw [if_neg h2] at h
      obtain ⟨hbd, hac⟩ := arrow_join_inj b a d c hb ha hd hc h
      exact Or.inl ⟨hac, hbd⟩

/-! ### Clean keys and non-negative values after Phase 1 -/

theorem CleanKeysL_addDebt (m : Ledger) (a b : String) (v : ℚ)
    (hm : CleanKeysL m) (ha : noArrow a) (hb : noArrow b) :
    CleanKeysL (addDebt m a b v) := by
  intro p hp
  rcases mem_mapSet _ _ _ _ hp with hpe | hpm
  · subst hpe
    refine ⟨ha, ?_⟩
    intro q hq
    rcases mem_mapSet _ _ _ _ hq with hqe | hqm
    · rw [hqe]
      exact hb
    · cases hma : mapGet m a with
      | none =>
        rw [hma] at hqm
        simp at hqm
      | some inn =>
        rw [hma] at hqm
        simp only [Option.getD_some] at hqm
        exact (hm (a, inn) (mem_of_mapGet_eq_some m a inn hma)).2 q hqm
  · exact hm p hpm

theorem CleanKeysL_phase1 (ts : List Transaction) (hcn : CleanNames ts) :
    CleanKeysL (phase1 ts) := by
  rw [phase1]
  have Hinner : ∀ (payer : String) (s : ℚ) (l : List String), noArrow payer →
      (∀ q ∈ l, noArrow q) → ∀ m : Ledger, CleanKeysL m →
      CleanKeysL (l.foldl (fun m2 participant =>
        if participant = payer then m2 else addDebt m2 participant payer s) m) := by
    intro payer s l hpayer
    induction l with
    | nil => intro _ m hm; exact hm
    | cons q l ih =>
      intro hl m hm
      rw [List.foldl_cons]
      by_cases hq : q = payer
      · rw [if_pos hq]
        exact ih (fun r hr => hl r (List.mem_cons_of_mem q hr)) m hm
      · rw [if_neg hq]
        exact ih (fun r hr => hl r (List.mem_cons_of_mem q hr)) _
          (CleanKeysL_addDebt m q payer s hm (hl q (List.mem_cons_self q l)) hpayer)
  have H : ∀ (l : List Transaction), (∀ t ∈ l, noArrow t.paid_by ∧
      ∀ q ∈ t.participants, noArrow q) → ∀ m : Ledger, CleanKeysL m →
      CleanKeysL (l.foldl (fun m t =>
        if t.participants.length = 0 then m
        else
          let splitAmount := t.amount / (t.participants.length : ℚ)
          t.participants.foldl (fun m2 participant =>
            if participant = t.paid_by then m2
            else addDebt m2 participant t.paid_by splitAmount) m) m) := by
    intro l
    induction l with
    | nil => intro _ m hm; exact hm
    | cons t l ih =>
      intro hl m hm
      rw [List.foldl_cons]
      by_cases hlen : t.participants.length = 0
      · rw [if_pos hlen]
        exact ih (fun r hr => hl r (List.mem_cons_of_mem t hr)) m hm
      · simp only [if_neg hlen]
        refine ih (fun r hr => hl r (List.mem_cons_of_mem t hr)) _ ?_
        exact Hinner t.paid_by _ t.participants (hl t (List.mem_cons_self t l)).1
          (hl t (List.mem_cons_self t l)).2 m hm
  exact H ts hcn [] (fun p hp => absurd hp (List.not_mem_nil p))

theorem NonnegL_phase1 (ts : List Transaction) (hts : ∀ t ∈ ts, 0 ≤ t.amount) :
    NonnegL (phase1 ts) := by
  rw [phase1]
  have Hinner : ∀ (payer : String) (s : ℚ), 0 ≤ s → ∀ (l : List String) (m : Ledger),
      NonnegL m → NonnegL (l.foldl (fun m2 participant =>
        if participant = payer then m2 else addDebt m2 participant payer s) m) := by
    intro payer s hs l
    induction l with
    | nil => intro m hm; exact hm
    | cons q l ih =>
      intro m hm
      rw [List.foldl_cons]
      by_cases hq : q = payer
      · rw [if_pos hq]
        exact ih m hm
      · rw [if_neg hq]
        exact ih _ (NonnegL_addDebt m q payer s hm hs)
  have H : ∀ (l : List Transaction), (∀ t ∈ l, 0 ≤ t.amount) → ∀ m : Ledger,
      NonnegL m → NonnegL (l.foldl (fun m t =>
        if t.participants.length = 0 then m
        else
          let splitAmount := t.amount / (t.participants.length : ℚ)
          t.participants.foldl (fun m2 participant =>
            if participant = t.paid_by then m2
            else addDebt m2 participant t.paid_by splitAmount) m) m) := by
    intro l
    induction l with
    | nil => intro _ m hm; exact hm
    | cons t l ih =>
      intro hl m hm
      rw [List.foldl_cons]
      by_cases hlen : t.participants.length = 0
      · rw [if_pos hlen]
        exact ih (fun r hr => hl r (List.mem_cons_of_mem t hr)) m hm
      · simp only [if_neg hlen]
        refine ih (fun r hr => hl r (List.mem_cons_of_mem t hr)) _ ?_
        refine Hinner t.paid_by _ ?_ t.participants m hm
        exact div_nonneg (hl t (List.mem_cons_self t l)) (by positivity)
  exact H ts hts [] (fun p hp => absurd hp (List.not_mem_nil p))

theorem getv_nonneg_of_NonnegL (m : Ledger) (hnn : NonnegL m) (a b : String) :
    0 ≤ getv m a b := by
  rw [getv]
  cases hma : mapGet m a with
  | none => rw [entryAt_none_left m a b hma]; rfl
  | some inn =>
    rw [entryAt_some_left m a b inn hma]
    cases hmb : mapGet inn b with
    | none => rfl
    | some v =>
      simp only [Option.getD_some]
      exact hnn (a, inn) (mem_of_mapGet_eq_some m a inn hma) (b, v)
        (mem_of_mapGet_eq_some inn b v hmb)

/-! ### Entries and ledger pairs -/

theorem entryAt_mem_ledgerPairs (m : Ledger) (a b : String) (v : ℚ)
    (h : entryAt m a b = some v) : (a, b) ∈ ledgerPairs m := by
  rw [entryAt] at h
  cases hma : mapGet m a with
  | none => rw [hma] at h; cases h
  | some inn =>
    rw [hma] at h
    simp only [Option.some_bind] at h
    rw [ledgerPairs]
    simp only [List.mem_flatMap, List.mem_map]
    exact ⟨(a, inn), mem_of_mapGet_eq_some m a inn hma,
      (b, v), mem_of_mapGet_eq_some inn b v h, rfl⟩

theorem ledgerPairs_entry_isSome (m : Ledger) (hw : WFLedger m) (a b : String)
    (h : (a, b) ∈ ledgerPairs m) : (entryAt m a b).isSome := by
  rw [ledgerPairs] at h
  simp only [List.mem_flatMap, List.mem_map] at h
  obtain ⟨e, he, q, hq, hpr⟩ := h
  obtain ⟨he1, he2⟩ := Prod.mk.injEq .. ▸ hpr
  have hma : mapGet m a = some e.2 := by
    rw [← he1]
    exact mapGet_eq_some_of_mem_nodup m e.1 e.2 hw.1 (by
      rw [show (e.1, e.2) = e from rfl]
      exact he)
  rw [entryAt, hma]
  simp only [Option.some_bind]
  rw [mapGet_eq_some_of_mem_nodup e.2 b q.2 (hw.2 e he) (by
    rw [← he2]
    exact (show (q.1, q.2) = q from rfl) ▸ hq)]
  rfl

theorem ledgerPairs_clean (m : Ledger) (hck : CleanKeysL m) (pr : String × String)
    (h : pr ∈ ledgerPairs m) : noArrow pr.1 ∧ noArrow pr.2 := by
  rw [ledgerPairs] at h
  simp only [List.mem_flatMap, List.mem_map] at h
  obtain ⟨e, he, q, hq, hpr⟩ := h
  rw [← hpr]
  exact ⟨(hck e he).1, (hck e he).2 q hq⟩

theorem entryAt_isSome_getv (m : Ledger) (a b : String)
    (h : (entryAt m a b).isSome) : entryAt m a b = some (getv m a b) := by
  obtain ⟨v, hv⟩ := Option.isSome_iff_exists.1 h
  rw [hv, getv, hv]
  rfl


/-! ### Frame properties of one Phase 2 step -/

theorem phase2step_entryAt_frame (m : Ledger) (pro : List String) (pr : String × String)
    (c d : String) (hcd1 : (c, d) ≠ (pr.1, pr.2)) (hcd2 : (c, d) ≠ (pr.2, pr.1)) :
    entryAt (phase2step (m, pro) pr).1 c d = entryAt m c d := by
  obtain ⟨a, b⟩ := pr
  simp only at hcd1 hcd2
  have hne1 : ¬ (c = a ∧ d = b) := by
    intro hh
    exact hcd1 (by rw [hh.1, hh.2])
  have hne2 : ¬ (c = b ∧ d = a) := by
    intro hh
    exact hcd2 (by rw [hh.1, hh.2])
  by_cases hkey : pairKeyStr a b ∈ pro
  · simp only [phase2step, if_pos hkey]
  · by_cases hy : 0 < getv m b a
    · simp only [phase2step, if_neg hkey, if_pos hy]
      set v1 : ℚ := if getv m b a < getv m a b then abs (getv m a b - getv m b a) else 0
        with hv1
      set v2 : ℚ := if getv m a b < getv m b a then abs (getv m a b - getv m b a) else 0
        with hv2
      split
      · rw [entryAt_setInner_ne _ b a c d v2 hne2, entryAt_setInner_ne m a b c d v1 hne1]
      · rw [entryAt_setInner_ne m a b c d v1 hne1]
    · simp only [phase2step, if_neg hkey, if_neg hy]

theorem phase2step_processed (st : Ledger × List String) (pr : String × String) :
    (phase2step st pr).2 = st.2 ∨
      (phase2step st pr).2 = pairKeyStr pr.1 pr.2 :: st.2 := by
  obtain ⟨m, pro⟩ := st
  obtain ⟨a, b⟩ := pr
  by_cases hkey : pairKeyStr a b ∈ pro
  · left
    simp only [phase2step, if_pos hkey]
  · right
    by_cases hy : 0 < getv m b a
    · simp only [phase2step, if_neg hkey, if_pos hy]
    · simp only [phase2step, if_neg hkey, if_neg hy]

theorem phase2step_processed_mono (st : Ledger × List String) (pr : String × String)
    (k : String) (h : k ∈ st.2) : k ∈ (phase2step st pr).2 := by
  rcases phase2step_processed st pr with he | he
  · rw [he]
    exact h
  · rw [he]
    exact List.mem_cons_of_mem _ h

theorem foldl_phase2step_processed_mono (S : List (String × String)) :
    ∀ (st : Ledger × List String) (k : String), k ∈ st.2 →
      k ∈ (S.foldl phase2step st).2 := by
  induction S with
  | nil => intro st k h; exact h
  | cons pr S ih =>
    intro st k h
    rw [List.foldl_cons]
    exact ih (phase2step st pr) k (phase2step_processed_mono st pr k h)

/-! ### Reading entries of the cleaned-up ledger -/

theorem mapGet_filter_cent (inn : InnerMap) (b : String) (hnd : (keys inn).Nodup) :
    mapGet (inn.filter (fun q => ¬ (q.2 < 1/100))) b =
      match mapGet inn b with
      | some v => if v < 1/100 then none else some v
      | none => none := by
  induction inn with
  | nil => rfl
  | cons q rest ih =>
    obtain ⟨k, v⟩ := q
    rw [keys_cons, List.nodup_cons] at hnd
    by_cases hkb : k = b
    · subst hkb
      have hg : mapGet ((k, v) :: rest) k = some v := by rw [mapGet, if_pos rfl]
      by_cases hv : v < 1/100
      · rw [List.filter_cons, if_neg (by simpa using hv)]
        have hnotin : mapGet (rest.filter (fun q => ¬ (q.2 < 1/100))) k = none := by
          apply mapGet_eq_none_of_not_mem_keys
          intro hmem
          apply hnd.1
          have hsub : (keys (rest.filter (fun q => ¬ (q.2 < 1/100)))).Sublist (keys rest) :=
            List.Sublist.map Prod.fst (List.filter_sublist rest)
          exact hsub.mem hmem
        rw [hnotin, hg]
        show (none : Option ℚ) = if v < 1/100 then none else some v
        rw [if_pos hv]
      · rw [List.filter_cons, if_pos (by simpa using hv), hg]
        rw [mapGet, if_pos rfl]
        show (some v : Option ℚ) = if v < 1/100 then none else some v
        rw [if_neg hv]
    · by_cases hv : v < 1/100
      · rw [List.filter_cons, if_neg (by simpa using hv), ih hnd.2, mapGet, if_neg hkb]
      · rw [List.filter_cons, if_pos (by simpa using hv), mapGet, if_neg hkb, ih hnd.2,
          mapGet, if_neg hkb]

theorem entryAt_cleanup (m : Ledger) (hw : WFLedger m) (a b : String) :
    entryAt (cleanup m) a b =
      match entryAt m a b with
      | some v => if v < 1/100 then none else some v
      | none => none := by
  induction m with
  | nil => rfl
  | cons e rest ih =>
    obtain ⟨k, inn⟩ := e
    have hwk : (keys ((k, inn) :: rest)).Nodup := hw.1
    rw [keys_cons, List.nodup_cons] at hwk
    have hwrest : WFLedger rest := ⟨hwk.2, fun p hp => hw.2 p (List.mem_cons_of_mem _ hp)⟩
    have hinnnd : (keys inn).Nodup := hw.2 (k, inn) (List.mem_cons_self _ _)
    have hcl : cleanup ((k, inn) :: rest) =
        if (inn.filter (fun q => ¬ (q.2 < 1/100))).length = 0 then cleanup rest
        else (k, inn.filter (fun q => ¬ (q.2 < 1/100))) :: cleanup rest := by
      rw [cleanup, List.map_cons, List.filter_cons]
      by_cases hl : (inn.filter (fun q => ¬ (q.2 < 1/100))).length = 0
      · rw [if_pos hl, if_neg (by simpa using hl)]
        rfl
      · rw [if_neg hl, if_pos (by simpa using hl)]
        rfl
    by_cases hka : k = a
    · subst hka
      rw [hcl]
      by_cases hl : (inn.filter (fun q => ¬ (q.2 < 1/100))).length = 0
      · rw [if_pos hl]
        have hnone : entryAt (cleanup rest) k b = none := by
          apply entryAt_none_left
          apply mapGet_eq_none_of_not_mem_keys
          intro hmem
          exact hwk.1 ((keys_cleanup_sublist rest).mem hmem)
        rw [hnone]
        rw [entryAt_some_left ((k, inn) :: rest) k b inn (by rw [mapGet, if_pos rfl])]
        cases hmb : mapGet inn b with
        | none => rfl
        | some v =>
          have hv : v < 1/100 := by
            by_contra hnv
            have hmem : (b, v) ∈ inn.filter (fun q => ¬ (q.2 < 1/100)) :=
              List.mem_filter.2 ⟨mem_of_mapGet_eq_some inn b v hmb, by simpa using hnv⟩
            rw [List.length_eq_zero] at hl
            rw [hl] at hmem
            cases hmem
          show (none : Option ℚ) = if v < 1/100 then none else some v
          rw [if_pos hv]
      · rw [if_neg hl]
        rw [entryAt_some_left ((k, inn.filter (fun q => ¬ (q.2 < 1/100))) :: cleanup rest)
          k b (inn.filter (fun q => ¬ (q.2 < 1/100))) (by rw [mapGet, if_pos rfl])]
        rw [entryAt_some_left ((k, inn) :: rest) k b inn (by rw [mapGet, if_pos rfl])]
        exact mapGet_filter_cent inn b hinnnd
    · have h1 : entryAt ((k, inn) :: rest) a b = entryAt rest a b := by
        rw [entryAt, mapGet, if_neg hka, entryAt]
      rw [h1, hcl]
      by_cases hl : (inn.filter (fun q => ¬ (q.2 < 1/100))).length = 0
      · rw [if_pos hl]
        exact ih hwrest
      · rw [if_neg hl]
        have h2 : entryAt ((k, inn.filter (fun q => ¬ (q.2 < 1/100))) :: cleanup rest) a b
            = entryAt (cleanup rest) a b := by
          rw [entryAt, mapGet, if_neg hka, entryAt]
        rw [h2]
        exact ih hwrest

/-! ### Phase 2 processes each pair key it meets -/

theorem entryAt_eq_some_parts (m : Ledger) (a b : String) (v : ℚ)
    (h : entryAt m a b = some v) :
    ∃ inn, mapGet m a = some inn ∧ mapGet inn b = some v := by
  rw [entryAt] at h
  cases hma : mapGet m a with
  | none => rw [hma] at h; cases h
  | some inn =>
    rw [hma] at h
    simp only [Option.some_bind] at h
    exact ⟨inn, rfl, h⟩

theorem entryAt_isSome_of_pos (m : Ledger) (a b : String) (h : 0 < getv m a b) :
    (entryAt m a b).isSome := by
  rw [getv] at h
  cases he : entryAt m a b with
  | none =>
    rw [he] at h
    rw [Option.getD_none] at h
    exact absurd h (lt_irrefl 0)
  | some v => rfl

theorem phase2step_key_mem (st : Ledger × List String) (pr : String × String) :
    pairKeyStr pr.1 pr.2 ∈ (phase2step st pr).2 := by
  obtain ⟨m, pro⟩ := st
  obtain ⟨a, b⟩ := pr
  by_cases hkey : pairKeyStr a b ∈ pro
  · simpa only [phase2step, if_pos hkey] using hkey
  · by_cases hy : 0 < getv m b a
    · simp only [phase2step, if_neg hkey, if_pos hy]
      exact List.mem_cons_self _ _
    · simp only [phase2step, if_neg hkey, if_neg hy]
      exact List.mem_cons_self _ _

theorem foldl_phase2step_key_mem (S : List (String × String)) :
    ∀ (st : Ledger × List String) (pr : String × String), pr ∈ S →
      pairKeyStr pr.1 pr.2 ∈ (S.foldl phase2step st).2 := by
  induction S with
  | nil => intro st pr h; cases h
  | cons q S ih =>
    intro st pr h
    rw [List.foldl_cons]
    rcases List.mem_cons.1 h with he | hm
    · subst he
      exact foldl_phase2step_processed_mono S (phase2step st pr) _
        (phase2step_key_mem st pr)
    · exact ih (phase2step st q) pr hm

/-! ### Phase 2 neither creates nor deletes ledger entries -/

theorem entryAt_setInner_isSome_eq (m : Ledger) (a b : String) (v : ℚ)
    (h : (entryAt m a b).isSome) (c d : String) :
    (entryAt (setInner m a b v) c d).isSome = (entryAt m c d).isSome := by
  by_cases hcd : c = a ∧ d = b
  · rw [hcd.1, hcd.2]
    obtain ⟨v0, hv0⟩ := Option.isSome_iff_exists.1 h
    obtain ⟨inn, hma, _⟩ := entryAt_eq_some_parts m a b v0 hv0
    rw [entryAt_setInner_self m a b v (by rw [hma]; rfl), hv0]
    rfl
  · rw [entryAt_setInner_ne m a b c d v hcd]

theorem phase2step_entry_isSome_eq (st : Ledger × List String) (pr : String × String)
    (hpr : (entryAt st.1 pr.1 pr.2).isSome) (c d : String) :
    (entryAt (phase2step st pr).1 c d).isSome = (entryAt st.1 c d).isSome := by
  obtain ⟨m, pro⟩ := st
  obtain ⟨a, b⟩ := pr
  simp only at hpr
  by_cases hkey : pairKeyStr a b ∈ pro
  · simp only [phase2step, if_pos hkey]
  · by_cases hy : 0 < getv m b a
    · simp only [phase2step, if_neg hkey, if_pos hy]
      set v1 : ℚ := if getv m b a < getv m a b then abs (getv m a b - getv m b a) else 0
        with hv1
      set v2 : ℚ := if getv m a b < getv m b a then abs (getv m a b - getv m b a) else 0
        with hv2
      have hm1 : ∀ c' d', (entryAt (setInner m a b v1) c' d').isSome
          = (entryAt m c' d').isSome :=
        fun c' d' => entryAt_setInner_isSome_eq m a b v1 hpr c' d'
      split
      · have hba : (entryAt (setInner m a b v1) b a).isSome := by
          rw [hm1 b a]
          exact entryAt_isSome_of_pos m b a hy
        rw [entryAt_setInner_isSome_eq (setInner m a b v1) b a v2 hba c d, hm1 c d]
      · exact hm1 c d
    · simp only [phase2step, if_neg hkey, if_neg hy]

theorem foldl_phase2step_entry_isSome_eq (S : List (String × String)) :
    ∀ (st : Ledger × List String),
      (∀ pr ∈ S, (entryAt st.1 pr.1 pr.2).isSome) →
      ∀ c d, (entryAt (S.foldl phase2step st).1 c d).isSome
        = (entryAt st.1 c d).isSome := by
  induction S with
  | nil => intro st _ c d; rfl
  | cons q S ih =>
    intro st hS c d
    rw [List.foldl_cons]
    have hq : (entryAt st.1 q.1 q.2).isSome := hS q (List.mem_cons_self q S)
    have hstep := phase2step_entry_isSome_eq st q hq
    rw [ih (phase2step st q) (fun pr hpr => by
      rw [hstep pr.1 pr.2]
      exact hS pr (List.mem_cons_of_mem q hpr)) c d, hstep c d]

theorem phase2net_entry_isSome_eq (m0 : Ledger) (hw : WFLedger m0) (c d : String) :
    (entryAt (phase2net m0) c d).isSome = (entryAt m0 c d).isSome := by
  rw [phase2net]
  exact foldl_phase2step_entry_isSome_eq (ledgerPairs m0) (m0, [])
    (fun pr hpr => ledgerPairs_entry_isSome m0 hw pr.1 pr.2 hpr) c d

/-! ### What one Phase 2 step does to the pair it processes -/

theorem phase2step_net (m : Ledger) (pro : List String) (a b : String)
    (hab : a ≠ b) (x y : ℚ) (hx : 0 ≤ x) (hy : 0 ≤ y)
    (hEab : entryAt m a b = some x) (hEba : entryAt m b a = some y)
    (hkey : pairKeyStr a b ∉ pro) :
    entryAt (phase2step (m, pro) (a, b)).1 a b = some (if y < x then x - y else 0) ∧
    entryAt (phase2step (m, pro) (a, b)).1 b a = some (if x < y then y - x else 0) ∧
    (phase2step (m, pro) (a, b)).2 = pairKeyStr a b :: pro := by
  have hgab : getv m a b = x := by rw [getv, hEab]; rfl
  have hgba : getv m b a = y := by rw [getv, hEba]; rfl
  obtain ⟨inna, hma, _⟩ := entryAt_eq_some_parts m a b x hEab
  obtain ⟨innb, hmb, _⟩ := entryAt_eq_some_parts m b a y hEba
  by_cases hypos : 0 < getv m b a
  · simp only [phase2step, if_neg hkey, if_pos hypos]
    set v1 : ℚ := if getv m b a < getv m a b then abs (getv m a b - getv m b a) else 0
      with hv1
    set v2 : ℚ := if getv m a b < getv m b a then abs (getv m a b - getv m b a) else 0
      with hv2
    have hm1b : (mapGet (setInner m a b v1) b).isSome := by
      rw [mapGet_setInner_other m a b b v1 (Ne.symm hab), hmb]
      rfl
    split
    next hS =>
      refine ⟨?_, ?_, trivial⟩
      · rw [entryAt_setInner_ne (setInner m a b v1) b a a b v2 (fun hh => hab hh.1),
          entryAt_setInner_self m a b v1 (by rw [hma]; rfl), hv1, hgab, hgba]
        by_cases hyx : y < x
        · rw [if_pos hyx, if_pos hyx, abs_of_pos (sub_pos.2 hyx)]
        · rw [if_neg hyx, if_neg hyx]
      · rw [entryAt_setInner_self (setInner m a b v1) b a v2 hm1b, hv2, hgab, hgba]
        by_cases hxy : x < y
        · rw [if_pos hxy, if_pos hxy, abs_of_neg (sub_neg.2 hxy), neg_sub]
        · rw [if_neg hxy, if_neg hxy]
    next hS =>
      exact absurd hm1b hS
  · have hyz : y = 0 := le_antisymm (by rw [← hgba]; exact not_lt.1 hypos) hy
    simp only [phase2step, if_neg hkey, if_neg hypos]
    refine ⟨?_, ?_, trivial⟩
    · rw [hEab, hyz]
      by_cases hx' : 0 < x
      · rw [if_pos hx', sub_zero]
      · rw [if_neg hx', le_antisymm (not_lt.1 hx') hx]
    · rw [hEba, hyz, if_neg (not_lt.2 hx)]

/-! ### The pair invariant is preserved by every Phase 2 step -/

theorem phase2step_pairInv (X Y : String) (hXY : X ≠ Y) (hX : noArrow X)
    (hY : noArrow Y) (x0 y0 : ℚ) (hx0 : 0 ≤ x0) (hy0 : 0 ≤ y0)
    (st : Ledger × List String) (pr : String × String)
    (hpa : noArrow pr.1) (hpb : noArrow pr.2)
    (h : pairInv X Y x0 y0 st) : pairInv X Y x0 y0 (phase2step st pr) := by
  obtain ⟨m, pro⟩ := st
  obtain ⟨a, b⟩ := pr
  simp only at hpa hpb
  rcases h with ⟨h1, h2, h3⟩ | ⟨hpost, hkey⟩
  · simp only at h1 h2 h3
    by_cases htgt1 : (a, b) = (X, Y)
    · rw [htgt1]
      obtain ⟨hA, hB, hP⟩ := phase2step_net m pro X Y hXY x0 y0 hx0 hy0 h1 h2 h3
      right
      refine ⟨⟨hA, hB⟩, ?_⟩
      rw [hP]
      exact List.mem_cons_self _ _
    · by_cases htgt2 : (a, b) = (Y, X)
      · rw [htgt2]
        obtain ⟨hA, hB, hP⟩ := phase2step_net m pro Y X (Ne.symm hXY) y0 x0 hy0 hx0 h2 h1
          (by rw [pairKeyStr_symm Y X]; exact h3)
        right
        refine ⟨⟨hB, hA⟩, ?_⟩
        rw [hP, pairKeyStr_symm X Y]
        exact List.mem_cons_self _ _
      · left
        have hf1 : entryAt (phase2step (m, pro) (a, b)).1 X Y = entryAt m X Y :=
          phase2step_entryAt_frame m pro (a, b) X Y
            (fun hh => htgt1 hh.symm)
            (fun hh => htgt2 (by
              rw [Prod.mk.injEq] at hh ⊢
              exact ⟨hh.2.symm, hh.1.symm⟩))
        have hf2 : entryAt (phase2step (m, pro) (a, b)).1 Y X = entryAt m Y X :=
          phase2step_entryAt_frame m pro (a, b) Y X
            (fun hh => htgt2 hh.symm)
            (fun hh => htgt1 (by
              rw [Prod.mk.injEq] at hh ⊢
              exact ⟨hh.2.symm, hh.1.symm⟩))
        refine ⟨by rw [hf1]; exact h1, by rw [hf2]; exact h2, ?_⟩
        intro hmem
        rcases phase2step_processed (m, pro) (a, b) with he | he
        · rw [he] at hmem
          exact h3 hmem
        · rw [he] at hmem
          rcases List.mem_cons.1 hmem with heq | hmem2
          · rcases pairKeyStr_inj a b X Y hpa hpb hX hY heq.symm with ⟨ha', hb'⟩ | ⟨ha', hb'⟩
            · exact htgt1 (by rw [ha', hb'])
            · exact htgt2 (by rw [ha', hb'])
          · exact h3 hmem2
  · simp only at hpost hkey
    have hkey2 : pairKeyStr X Y ∈ (phase2step (m, pro) (a, b)).2 :=
      phase2step_processed_mono (m, pro) (a, b) _ hkey
    by_cases htgt1 : (a, b) = (X, Y)
    · have hk : pairKeyStr a b ∈ pro := by
        rw [Prod.mk.injEq] at htgt1
        rw [htgt1.1, htgt1.2]
        exact hkey
      have hskip : phase2step (m, pro) (a, b) = (m, pro) := by
        simp only [phase2step, if_pos hk]
      rw [hskip]
      exact Or.inr ⟨hpost, hkey⟩
    · by_cases htgt2 : (a, b) = (Y, X)
      · have hk : pairKeyStr a b ∈ pro := by
          rw [Prod.mk.injEq] at htgt2
          rw [htgt2.1, htgt2.2, pairKeyStr_symm Y X]
          exact hkey
        have hskip : phase2step (m, pro) (a, b) = (m, pro) := by
          simp only [phase2step, if_pos hk]
        rw [hskip]
        exact Or.inr ⟨hpost, hkey⟩
      · right
        have hf1 : entryAt (phase2step (m, pro) (a, b)).1 X Y = entryAt m X Y :=
          phase2step_entryAt_frame m pro (a, b) X Y
            (fun hh => htgt1 hh.symm)
            (fun hh => htgt2 (by
              rw [Prod.mk.injEq] at hh ⊢
              exact ⟨hh.2.symm, hh.1.symm⟩))
        have hf2 : entryAt (phase2step (m, pro) (a, b)).1 Y X = entryAt m Y X :=
          phase2step_entryAt_frame m pro (a, b) Y X
            (fun hh => htgt2 hh.symm)
            (fun hh => htgt1 (by
              rw [Prod.mk.injEq] at hh ⊢
              exact ⟨hh.2.symm, hh.1.symm⟩))
        exact ⟨⟨by rw [hf1]; exact hpost.1, by rw [hf2]; exact hpost.2⟩, hkey2⟩

theorem foldl_phase2step_pairInv (X Y : String) (hXY : X ≠ Y) (hX : noArrow X)
    (hY : noArrow Y) (x0 y0 : ℚ) (hx0 : 0 ≤ x0) (hy0 : 0 ≤ y0)
    (S : List (String × String)) :
    ∀ (st : Ledger × List String), (∀ pr ∈ S, noArrow pr.1 ∧ noArrow pr.2) →
      pairInv X Y x0 y0 st → pairInv X Y x0 y0 (S.foldl phase2step st) := by
  induction S with
  | nil => intro st _ h; exact h
  | cons q S ih =>
    intro st hS h
    rw [List.foldl_cons]
    exact ih (phase2step st q) (fun pr hpr => hS pr (List.mem_cons_of_mem q hpr))
      (phase2step_pairInv X Y hXY hX hY x0 y0 hx0 hy0 st q
        (hS q (List.mem_cons_self q S)).1 (hS q (List.mem_cons_self q S)).2 h)

/-! ### The outcome of Phase 2 on one bidirectional pair -/

theorem phase2net_pair (m0 : Ledger) (hw : WFLedger m0) (hck : CleanKeysL m0)
    (X Y : String) (hXY : X ≠ Y) (hX : noArrow X) (hY : noArrow Y)
    (hxw : (entryAt m0 X Y).isSome) (hyw : (entryAt m0 Y X).isSome)
    (hx0 : 0 ≤ getv m0 X Y) (hy0 : 0 ≤ getv m0 Y X) :
    entryAt (phase2net m0) X Y =
      some (if getv m0 Y X < getv m0 X Y then getv m0 X Y - getv m0 Y X else 0) ∧
    entryAt (phase2net m0) Y X =
      some (if getv m0 X Y < getv m0 Y X then getv m0 Y X - getv m0 X Y else 0) := by
  have hstart : pairInv X Y (getv m0 X Y) (getv m0 Y X) (m0, []) :=
    Or.inl ⟨entryAt_isSome_getv m0 X Y hxw, entryAt_isSome_getv m0 Y X hyw,
      List.not_mem_nil _⟩
  have hend := foldl_phase2step_pairInv X Y hXY hX hY _ _ hx0 hy0 (ledgerPairs m0)
    (m0, []) (fun pr hpr => ledgerPairs_clean m0 hck pr hpr) hstart
  have hvisited : pairKeyStr X Y ∈ ((ledgerPairs m0).foldl phase2step (m0, [])).2 := by
    have hmem : (X, Y) ∈ ledgerPairs m0 := by
      obtain ⟨v, hv⟩ := Option.isSome_iff_exists.1 hxw
      exact entryAt_mem_ledgerPairs m0 X Y v hv
    exact foldl_phase2step_key_mem (ledgerPairs m0) (m0, []) (X, Y) hmem
  rw [phase2net]
  rcases hend with ⟨_, _, h3⟩ | ⟨hpost, _⟩
  · exact absurd hvisited h3
  · exact ⟨hpost.1, hpost.2⟩

/-! ### Reading one entry through the cleanup -/

theorem cleanup_entry_of_some (m : Ledger) (hw : WFLedger m) (a b : String) (v : ℚ)
    (h : entryAt m a b = some v) :
    entryAt (cleanup m) a b = if v < 1/100 then none else some v := by
  rw [entryAt_cleanup m hw a b, h]

theorem cleanup_entry_of_none (m : Ledger) (hw : WFLedger m) (a b : String)
    (h : entryAt m a b = none) : entryAt (cleanup m) a b = none := by
  rw [entryAt_cleanup m hw a b, h]

/-! ### Claim theorems (first group) -/

/-- Claim C1, counterexample: exact conservation fails in the output
because amounts are rounded to whole cents.  For a single 100-unit
transaction split three ways, participant `A`'s net position in the output
is `66.66` while the raw computation gives `200/3`. -/
theorem C1_counterexample :
    netposDebts (simplifyDebts [⟨"A", 100, ["A","B","C"]⟩]) "A" ≠
      rawNet [⟨"A", 100, ["A","B","C"]⟩] "A" := by
  decide

/-- Claim C1, amended: conservation holds exactly for the ledger after
Phase 1 accumulation and Phase 2 netting, before the sub-cent cleanup and
the final rounding: each participant's net position there equals their
total paid on behalf of others minus their total share consumed, computed
directly from the raw transaction list. -/
theorem C1_amended_conservation (ts : List Transaction) (p : String) :
    netposL (phase2net (phase1 ts)) p = rawNet ts p := by
  rw [netposL_phase2net, netposL_phase1]

/-- Claim C2, counterexample: on the spec's chain-collapse example the
engine does find a chain (`C` owes `B` 30 and `B` owes `A` 45 form the
collapsible pattern C→B→A) and does not return the two debts the claim
states: no `C→B` entry survives, and the output differs from the claimed
list. -/
theorem C2_counterexample :
    findChain (cleanup (phase2net (phase1
        [⟨"A", 90, ["A","B"]⟩, ⟨"B", 60, ["B","C"]⟩]))) =
      some ⟨"C", "B", "A", 30, 45⟩ ∧
    Debt.mk "C" "B" 30 ∉ simplifyDebts [⟨"A", 90, ["A","B"]⟩, ⟨"B", 60, ["B","C"]⟩] ∧
    simplifyDebts [⟨"A", 90, ["A","B"]⟩, ⟨"B", 60, ["B","C"]⟩] ≠
      [Debt.mk "B" "A" 45, Debt.mk "C" "B" 30] := by
  refine ⟨by decide, by decide, by decide⟩

/-- Claim C2, amended: on the input
`[{paid_by:"A",amount:90,participants:["A","B"]},
{paid_by:"B",amount:60,participants:["B","C"]}]` the engine finds the
chain C→B→A (C owes B 30, B owes A 45), transfers 30, and returns exactly
`[{from:"B",to:"A",amount:15}, {from:"C",to:"A",amount:30}]`. -/
theorem C2_amended_chain_collapsed :
    simplifyDebts [⟨"A", 90, ["A","B"]⟩, ⟨"B", 60, ["B","C"]⟩] =
      [Debt.mk "B" "A" 15, Debt.mk "C" "A" 30] := by
  decide

/-- Claim C7: every amount in the output of `simplifyDebts` is at least
one cent and equals its own value rounded to two decimal places. -/
theorem C7_output_cent_rounded (ts : List Transaction) (d : Debt)
    (h : d ∈ simplifyDebts ts) : 1/100 ≤ d.amount ∧ round2 d.amount = d.amount := by
  simp only [simplifyDebts] at h
  obtain ⟨p, hp, q, hq, hd, hv⟩ := mem_materialize_entry _ d h
  have hamt : d.amount = round2 q.2 := by rw [hd]
  constructor
  · rw [hamt]
    exact round2_ge_cent q.2 hv
  · rw [hamt, round2_idem]

/-- Witness for C7 at a concrete input. -/
theorem C7_output_cent_rounded_witness :
    (Debt.mk "B" "A" 50 ∈ simplifyDebts [⟨"A", 100, ["A","B"]⟩]) ∧
      (1/100 ≤ (Debt.mk "B" "A" 50).amount ∧
        round2 (Debt.mk "B" "A" 50).amount = (Debt.mk "B" "A" 50).amount) :=
  ⟨by decide, C7_output_cent_rounded [⟨"A", 100, ["A","B"]⟩] (Debt.mk "B" "A" 50) (by decide)⟩

/-- Claim C8: transactions with an empty participant list contribute
nothing (filtering them away does not change the output), and the empty
input yields the empty output.  The share division is syntactically
guarded by the same emptiness test in `phase1`, so its divisor is the
length of a non-empty list. -/
theorem C8_empty_participants_skipped (ts : List Transaction) :
    simplifyDebts (ts.filter (fun t => !t.participants.isEmpty)) = simplifyDebts ts ∧
      simplifyDebts ([] : List Transaction) = [] := by
  constructor
  · have h : phase1 (ts.filter (fun t => !t.participants.isEmpty)) = phase1 ts := by
      rw [phase1, phase1]
      apply foldl_filter_skip
      intro m t ht
      have hnil : t.participants = [] := by
        cases hpe : t.participants.isEmpty with
        | true => exact List.isEmpty_iff.1 hpe
        | false => rw [hpe] at ht; cases ht
      simp [hnil]
    rw [simplifyDebts, simplifyDebts, h]
  · decide

/-- Claim C9: the per-head share divides by the participants array length
counting duplicates, and a participant different from the payer occurring
`k` times accrues `k` shares toward the payer in Phase 1. -/
theorem C9_duplicates_counted (t : Transaction) (p : String) (hp : ¬ p = t.paid_by) :
    getv (phase1 [t]) p t.paid_by
      = (t.participants.count p : ℚ) * (t.amount / (t.participants.length : ℚ)) := by
  rw [phase1]
  simp only [List.foldl_cons, List.foldl_nil]
  by_cases hlen : t.participants.length = 0
  · rw [if_pos hlen]
    have hnil : t.participants = [] := List.length_eq_zero.1 hlen
    rw [hnil]
    simp [getv, entryAt, mapGet]
  · rw [if_neg hlen]
    rw [phase1_inner_count t.paid_by _ p hp t.participants []]
    have h0 : getv [] p t.paid_by = 0 := rfl
    rw [h0, zero_add]

/-- Witness for C9: participant `"B"` listed twice among three heads of a
30-unit expense paid by `"A"` owes two 10-unit shares. -/
theorem C9_duplicates_counted_witness :
    (¬ "B" = "A") ∧ getv (phase1 [⟨"A", 30, ["B","B","A"]⟩]) "B" "A"
      = ((["B","B","A"].count "B" : ℕ) : ℚ) * ((30 : ℚ) / ((["B","B","A"].length : ℕ) : ℚ)) :=
  ⟨by decide, C9_duplicates_counted ⟨"A", 30, ["B","B","A"]⟩ "B" (by decide)⟩

/-- Claim C10: the engine is a pure function of its input list; equal
inputs give identical outputs, triple for triple and in the same order. -/
theorem C10_deterministic (ts1 ts2 : List Transaction) (h : ts1 = ts2) :
    simplifyDebts ts1 = simplifyDebts ts2 := by
  rw [h]

/-- Witness for C10 at a concrete input. -/
theorem C10_deterministic_witness :
    [Transaction.mk "A" 90 ["A","B"]] = [Transaction.mk "A" 90 ["A","B"]] ∧
      simplifyDebts [Transaction.mk "A" 90 ["A","B"]] =
        simplifyDebts [Transaction.mk "A" 90 ["A","B"]] :=
  ⟨rfl, C10_deterministic [Transaction.mk "A" 90 ["A","B"]]
    [Transaction.mk "A" 90 ["A","B"]] rfl⟩


/-- Claim C6: no output entry of `simplifyDebts` is a self-debt: Phase 1
never records a self-entry (the payer is excluded), Phase 2 only rewrites
existing directions, and Phase 3's cycle-skip keeps the transfer target
distinct from the chain's origin. -/
theorem C6_no_self_debt (ts : List Transaction) (d : Debt)
    (h : d ∈ simplifyDebts ts) : d.from_ ≠ d.to_ := by
  simp only [simplifyDebts] at h
  obtain ⟨p, hp, q, hq, hd, hv⟩ := mem_materialize_entry _ d h
  have hns : NoSelfL (phase3 (cleanup (phase2net (phase1 ts)))) := by
    rw [phase3]
    exact NoSelfL_phase3go _ _
      (NoSelfL_cleanup _ (NoSelfL_phase2net _ (NoSelfL_phase1 ts)))
  have hqp := hns p hp q hq
  rw [hd]
  exact Ne.symm hqp

/-- Witness for C6 at a concrete input. -/
theorem C6_no_self_debt_witness :
    (Debt.mk "B" "A" 50 ∈ simplifyDebts [⟨"A", 100, ["A","B"]⟩]) ∧ "B" ≠ "A" :=
  ⟨by decide, C6_no_self_debt [⟨"A", 100, ["A","B"]⟩] (Debt.mk "B" "A" 50) (by decide)⟩


/-- Claim C4: for every input with non-negative amounts, `simplifyDebts`
terminates: the fuel `phase3fuel` chosen for the Phase 3 loop suffices,
and the full scan after the last collapse finds no further chain (the
loop's fixpoint is reached).  Each collapse step removes at least one cent
from the total ledger value, which starts non-negative after cleanup. -/
theorem C4_phase3_terminates (ts : List Transaction)
    (h : ∀ t ∈ ts, 0 ≤ t.amount) :
    findChain (phase3 (cleanup (phase2net (phase1 ts)))) = none := by
  have hw : WFLedger (cleanup (phase2net (phase1 ts))) :=
    WFLedger_cleanup _ (WFLedger_phase2net _ (WFLedger_phase1 ts))
  have hns : NoSelfL (cleanup (phase2net (phase1 ts))) :=
    NoSelfL_cleanup _ (NoSelfL_phase2net _ (NoSelfL_phase1 ts))
  have hnn : NonnegL (cleanup (phase2net (phase1 ts))) := NonnegL_cleanup _
  have hS : 0 ≤ ledgerSum (cleanup (phase2net (phase1 ts))) := ledgerSum_nonneg _ hnn
  rw [phase3, phase3fuel]
  apply phase3go_fixpoint _ _ hw hns hnn
  have h2 : (0 : ℤ) ≤ ⌈(100 : ℚ) * ledgerSum (cleanup (phase2net (phase1 ts)))⌉ :=
    Int.ceil_nonneg (mul_nonneg (by norm_num) hS)
  calc (100 : ℚ) * ledgerSum (cleanup (phase2net (phase1 ts)))
      ≤ ((⌈(100 : ℚ) * ledgerSum (cleanup (phase2net (phase1 ts)))⌉ : ℤ) : ℚ) :=
        Int.le_ceil _
    _ = ((⌈(100 : ℚ) * ledgerSum (cleanup (phase2net (phase1 ts)))⌉.toNat : ℕ) : ℚ) := by
        exact_mod_cast (congrArg Int.cast (Int.toNat_of_nonneg h2)).symm

/-- Witness for C4 at a concrete input. -/
theorem C4_phase3_terminates_witness :
    (∀ t ∈ [Transaction.mk "A" 90 ["A","B"], Transaction.mk "B" 60 ["B","C"]],
      0 ≤ t.amount) ∧
    findChain (phase3 (cleanup (phase2net (phase1
      [Transaction.mk "A" 90 ["A","B"], Transaction.mk "B" 60 ["B","C"]])))) = none :=
  ⟨by decide, C4_phase3_terminates
    [Transaction.mk "A" 90 ["A","B"], Transaction.mk "B" 60 ["B","C"]] (by decide)⟩

/-- Claim C3 is refuted on the final output: on the cyclic input
`[{B,20,[A,B]}, {C,20,[B,C]}, {A,10,[A,C]}]` the output of `simplifyDebts`
contains both `A→C 10` and `C→A 5`, because the Phase 3 chain collapse
recreates a bidirectional pair after Phase 2 had removed all of them. -/
theorem C3_counterexample :
    simplifyDebts cycleDemo = [⟨"A", "C", 10⟩, ⟨"C", "A", 5⟩] := by
  decide

/-- Claim C3 (amended): right after Phase 2 netting and its cleanup — the
point where bidirectional pairs are consolidated — the ledger holds at
most one direction of at least one cent per unordered pair of distinct
arrow-free participants, for inputs with arrow-free names and
non-negative amounts.  The property does not survive Phase 3, which can
recreate a bidirectional pair in the final output. -/
theorem C3_amended_one_direction_after_netting (ts : List Transaction) (X Y : String)
    (hcn : CleanNames ts) (hX : noArrow X) (hY : noArrow Y) (hXY : X ≠ Y)
    (hamt : ∀ t ∈ ts, 0 ≤ t.amount) :
    ¬ (1/100 ≤ getv (cleanup (phase2net (phase1 ts))) X Y ∧
       1/100 ≤ getv (cleanup (phase2net (phase1 ts))) Y X) := by
  rintro ⟨hA, hB⟩
  have hw := WFLedger_phase1 ts
  have hck := CleanKeysL_phase1 ts hcn
  have hnn := NonnegL_phase1 ts hamt
  have hwp2 := WFLedger_phase2net (phase1 ts) hw
  have hxs : (entryAt (phase2net (phase1 ts)) X Y).isSome := by
    cases he : entryAt (phase2net (phase1 ts)) X Y with
    | none =>
      rw [getv, cleanup_entry_of_none (phase2net (phase1 ts)) hwp2 X Y he,
        Option.getD_none] at hA
      exact absurd hA (by norm_num)
    | some v => rfl
  have hys : (entryAt (phase2net (phase1 ts)) Y X).isSome := by
    cases he : entryAt (phase2net (phase1 ts)) Y X with
    | none =>
      rw [getv, cleanup_entry_of_none (phase2net (phase1 ts)) hwp2 Y X he,
        Option.getD_none] at hB
      exact absurd hB (by norm_num)
    | some v => rfl
  have hxw : (entryAt (phase1 ts) X Y).isSome := by
    rw [← phase2net_entry_isSome_eq (phase1 ts) hw X Y]
    exact hxs
  have hyw : (entryAt (phase1 ts) Y X).isSome := by
    rw [← phase2net_entry_isSome_eq (phase1 ts) hw Y X]
    exact hys
  obtain ⟨hA2, hB2⟩ := phase2net_pair (phase1 ts) hw hck X Y hXY hX hY hxw hyw
    (getv_nonneg_of_NonnegL (phase1 ts) hnn X Y)
    (getv_nonneg_of_NonnegL (phase1 ts) hnn Y X)
  rcases le_or_lt (getv (phase1 ts) X Y) (getv (phase1 ts) Y X) with hle | hgt
  · rw [if_neg (not_lt.2 hle)] at hA2
    rw [getv, cleanup_entry_of_some (phase2net (phase1 ts)) hwp2 X Y 0 hA2] at hA
    rw [if_pos (by norm_num), Option.getD_none] at hA
    exact absurd hA (by norm_num)
  · rw [if_neg (not_lt.2 hgt.le)] at hB2
    rw [getv, cleanup_entry_of_some (phase2net (phase1 ts)) hwp2 Y X 0 hB2] at hB
    rw [if_pos (by norm_num), Option.getD_none] at hB
    exact absurd hB (by norm_num)

/-- Witness for C3: on a single two-party purchase only `B→A 50` survives
the netting, so no unordered pair keeps both directions. -/
theorem C3_amended_one_direction_after_netting_witness :
    (CleanNames [⟨"A", 100, ["A", "B"]⟩] ∧ noArrow "A" ∧ noArrow "B" ∧
      "A" ≠ "B" ∧ ∀ t ∈ [(⟨"A", 100, ["A", "B"]⟩ : Transaction)], 0 ≤ t.amount) ∧
    ¬ (1/100 ≤ getv (cleanup (phase2net (phase1 [⟨"A", 100, ["A", "B"]⟩]))) "A" "B" ∧
       1/100 ≤ getv (cleanup (phase2net (phase1 [⟨"A", 100, ["A", "B"]⟩]))) "B" "A") :=
  ⟨⟨by decide, by decide, by decide, by decide, by decide⟩,
    C3_amended_one_direction_after_netting [⟨"A", 100, ["A", "B"]⟩] "A" "B"
      (by decide) (by decide) (by decide) (by decide) (by decide)⟩

/-- Claim C5 is refuted as stated: with participant names containing the
separator `→`, the unordered pairs {x, y→z} and {x→y, z} share the
canonical key `x→y→z`; the first pair processed marks the key, the second
pair is skipped, and after Phase 2 plus cleanup the skipped pair still
holds both directions (1 and 2) instead of the single netted entry 1. -/
theorem C5_counterexample :
    getv (phase1 collideDemo) "x→y" "z" = 1 ∧
    getv (phase1 collideDemo) "z" "x→y" = 2 ∧
    getv (cleanup (phase2net (phase1 collideDemo))) "x→y" "z" = 1 ∧
    getv (cleanup (phase2net (phase1 collideDemo))) "z" "x→y" = 2 := by
  exact ⟨by decide, by decide, by decide, by decide⟩

/-- Claim C5 (amended): Phase 2 netting behaves as specified for
arrow-free participant names.  For a pair {X, Y} with Phase-1 balances in
both directions, after Phase 2 and its cleanup the ledger keeps exactly
one entry `|x0 − y0|` directed from whoever owed more, and no entry in
either direction when the difference is below one cent. -/
theorem C5_amended_phase2_netting (ts : List Transaction) (X Y : String)
    (hcn : CleanNames ts) (hX : noArrow X) (hY : noArrow Y) (hXY : X ≠ Y)
    (hamt : ∀ t ∈ ts, 0 ≤ t.amount)
    (hxw : (entryAt (phase1 ts) X Y).isSome)
    (hyw : (entryAt (phase1 ts) Y X).isSome) :
    (1/100 ≤ getv (phase1 ts) X Y - getv (phase1 ts) Y X →
      entryAt (cleanup (phase2net (phase1 ts))) X Y
          = some (getv (phase1 ts) X Y - getv (phase1 ts) Y X) ∧
        entryAt (cleanup (phase2net (phase1 ts))) Y X = none) ∧
    (1/100 ≤ getv (phase1 ts) Y X - getv (phase1 ts) X Y →
      entryAt (cleanup (phase2net (phase1 ts))) Y X
          = some (getv (phase1 ts) Y X - getv (phase1 ts) X Y) ∧
        entryAt (cleanup (phase2net (phase1 ts))) X Y = none) ∧
    (abs (getv (phase1 ts) X Y - getv (phase1 ts) Y X) < 1/100 →
      entryAt (cleanup (phase2net (phase1 ts))) X Y = none ∧
        entryAt (cleanup (phase2net (phase1 ts))) Y X = none) := by
  have hw := WFLedger_phase1 ts
  have hck := CleanKeysL_phase1 ts hcn
  have hnn := NonnegL_phase1 ts hamt
  have hwp2 := WFLedger_phase2net (phase1 ts) hw
  obtain ⟨hA2, hB2⟩ := phase2net_pair (phase1 ts) hw hck X Y hXY hX hY hxw hyw
    (getv_nonneg_of_NonnegL (phase1 ts) hnn X Y)
    (getv_nonneg_of_NonnegL (phase1 ts) hnn Y X)
  set x0 := getv (phase1 ts) X Y with hx0d
  set y0 := getv (phase1 ts) Y X with hy0d
  refine ⟨fun h => ?_, fun h => ?_, fun h => ?_⟩
  · have hyx : y0 < x0 := sub_pos.1 (lt_of_lt_of_le (by norm_num) h)
    rw [if_pos hyx] at hA2
    rw [if_neg (not_lt.2 hyx.le)] at hB2
    constructor
    · rw [cleanup_entry_of_some _ hwp2 X Y _ hA2, if_neg (not_lt.2 h)]
    · rw [cleanup_entry_of_some _ hwp2 Y X 0 hB2, if_pos (by norm_num)]
  · have hxy : x0 < y0 := sub_pos.1 (lt_of_lt_of_le (by norm_num) h)
    rw [if_pos hxy] at hB2
    rw [if_neg (not_lt.2 hxy.le)] at hA2
    constructor
    · rw [cleanup_entry_of_some _ hwp2 Y X _ hB2, if_neg (not_lt.2 h)]
    · rw [cleanup_entry_of_some _ hwp2 X Y 0 hA2, if_pos (by norm_num)]
  · constructor
    · by_cases hyx : y0 < x0
      · rw [if_pos hyx] at hA2
        rw [cleanup_entry_of_some _ hwp2 X Y _ hA2,
          if_pos (lt_of_le_of_lt (le_abs_self _) h)]
      · rw [if_neg hyx] at hA2
        rw [cleanup_entry_of_some _ hwp2 X Y 0 hA2, if_pos (by norm_num)]
    · by_cases hxy : x0 < y0
      · rw [if_pos hxy] at hB2
        have h' : y0 - x0 < 1/100 :=
          lt_of_le_of_lt (le_trans (le_abs_self _) (le_of_eq (abs_sub_comm y0 x0))) h
        rw [cleanup_entry_of_some _ hwp2 Y X _ hB2, if_pos h']
      · rw [if_neg hxy] at hB2
        rw [cleanup_entry_of_some _ hwp2 Y X 0 hB2, if_pos (by norm_num)]

/-- Witness for C5: on `pairDemo` the balances are A→B 20 and B→A 50, and
the netting leaves the single entry B→A 30. -/
theorem C5_amended_phase2_netting_witness :
    (CleanNames pairDemo ∧ noArrow "A" ∧ noArrow "B" ∧ "A" ≠ "B" ∧
      (∀ t ∈ pairDemo, 0 ≤ t.amount) ∧
      (entryAt (phase1 pairDemo) "A" "B").isSome ∧
      (entryAt (phase1 pairDemo) "B" "A").isSome) ∧
    ((1/100 ≤ getv (phase1 pairDemo) "A" "B" - getv (phase1 pairDemo) "B" "A" →
      entryAt (cleanup (phase2net (phase1 pairDemo))) "A" "B"
          = some (getv (phase1 pairDemo) "A" "B" - getv (phase1 pairDemo) "B" "A") ∧
        entryAt (cleanup (phase2net (phase1 pairDemo))) "B" "A" = none) ∧
    (1/100 ≤ getv (phase1 pairDemo) "B" "A" - getv (phase1 pairDemo) "A" "B" →
      entryAt (cleanup (phase2net (phase1 pairDemo))) "B" "A"
          = some (getv (phase1 pairDemo) "B" "A" - getv (phase1 pairDemo) "A" "B") ∧
        entryAt (cleanup (phase2net (phase1 pairDemo))) "A" "B" = none) ∧
    (abs (getv (phase1 pairDemo) "A" "B" - getv (phase1 pairDemo) "B" "A") < 1/100 →
      entryAt (cleanup (phase2net (phase1 pairDemo))) "A" "B" = none ∧
        entryAt (cleanup (phase2net (phase1 pairDemo))) "B" "A" = none)) :=
  ⟨⟨by decide, by decide, by decide, by decide, by decide, by decide, by decide⟩,
    C5_amended_phase2_netting pairDemo "A" "B" (by decide) (by decide) (by decide)
      (by decide) (by decide) (by decide) (by decide)⟩

end Finance
